import Mathlib

/-!
Verification development for the `gud-bench` micro-benchmark harness.

The definitions below are a shallow embedding of `src/Benchmark.ts`:

* Times are exact rationals (the JS code uses `performance.now()` doubles;
  the claims under study are about the arithmetic structure, which the
  rational model captures; the square roots produced by `Math.sqrt` are
  modelled by `Real.sqrt` on the casted rational).
* The engine's effectful parts (randomness via `Math.random`, the clock,
  the behaviour of user-supplied test callables) are modelled as oracles
  carried in a `RunCtx`: `pick n` is the raw random draw before the `n`-th
  call, `time n` is the measured duration of the `n`-th call, and each
  test's callable is a function of the global call number (so stateful or
  throwing callables are representable).
* The `while (queue.length)` loop is modelled with explicit fuel; running
  out of fuel (`CycleOut.fuelOut`, surfaced as `none` from `run`) models
  divergence, while `CycleOut.halted` models a thrown error caught by the
  `try`/`catch` around the loop.
* Forced garbage collection (`globalThis.gc?.()`) is modelled by recording
  the current `iterationCount` in a `gcLog`.
-/

namespace GudBench

/-- JS value of type `boolean | string`, the return type of a configured
`validate` callback. -/
inductive ValidateReturn where
  | bool (b : Bool)
  | str (s : String)
deriving DecidableEq

/-- Model of `#handleIteration`'s validation step
(`validate(result, value) || 'Validation failed'` followed by
`if (validationResult !== true) throw validationResult`): `none` means the
validation passed, `some msg` means the string `msg` is thrown.  JS `||`
replaces the falsy values `false` and `""` by the default message. -/
def validationMessage : ValidateReturn → Option String
  | .bool true => none
  | .bool false => some "Validation failed"
  | .str s => if s = "" then some "Validation failed" else some s

/-- Model of the `TestResult` record of `Benchmark.ts`.  `samples` and
`totalTime` are filled during the run; the four statistics fields are
absent (`none`) until `#calculateStatistics` runs. -/
structure TestResult where
  name : String
  samples : List ℚ
  totalTime : ℚ
  meanTime : Option ℚ := none
  opsPerSecond : Option ℚ := none
  stdDeviation : Option ℝ := none
  marginOfError : Option ℝ := none

instance : Inhabited TestResult := ⟨{ name := "", samples := [], totalTime := 0 }⟩

/-- One entry of the per-cycle `TestQueue`: `runs` counts the calls the
test has completed in the current cycle, `idx` is the test's index into
both `results` and `tests` (the source stores object references built with
`this.results.map((result, i) => ({ result, runs: 0, fn: this.tests[i].fn }))`;
the shared index models that aliasing). -/
structure QEntry where
  runs : ℕ
  idx : ℕ
deriving DecidableEq

instance : Inhabited QEntry := ⟨⟨0, 0⟩⟩

/-- The `gcStrategy` option. -/
inductive GCStrategy where
  | never
  | perCycle
  | perTest
  | periodic
deriving DecidableEq

/-- Everything `Benchmark.run` reads apart from `verbosity` (which only
affects reporting and the final `printResults` call): the registered tests,
the destructured options, and the oracles standing for the host's
randomness, clock and the behaviour of the callables.  `iterations` is the
raw JS number passed as call count, kept as a rational so that zero,
negative and fractional call counts are representable. -/
structure RunCtx (V R : Type) where
  tests : List (String × (ℕ → V → Except String R))
  iterations : ℚ
  cycles : ℕ
  value : V
  validate : Option (R → V → ValidateReturn)
  gcStrategy : GCStrategy
  gcInterval : ℕ
  hasGC : Bool
  pick : ℕ → ℕ
  time : ℕ → ℚ

instance {V R : Type} [Inhabited V] : Inhabited (RunCtx V R) :=
  ⟨{ tests := [], iterations := 0, cycles := 0, value := default, validate := none,
     gcStrategy := .periodic, gcInterval := 1000, hasGC := false,
     pick := fun _ => 0, time := fun _ => 0 }⟩

instance {V R : Type} : Inhabited (String × (ℕ → V → Except String R)) :=
  ⟨("", fun _ _ => Except.error "missing test")⟩

/-- Mutable state of one `run` invocation: the per-run `results` array, the
current cycle's queue, the run-global `iterationCount`, and the log of
forced-GC invocations (each entry is the `iterationCount` at the moment
`globalThis.gc?.()` was called). -/
structure RunState where
  results : List TestResult
  queue : List QEntry
  iterationCount : ℕ
  gcLog : List ℕ

instance : Inhabited RunState := ⟨{ results := [], queue := [], iterationCount := 0, gcLog := [] }⟩

/-- Apply `f` to the element at index `n`, leaving the list unchanged when
`n` is out of range (models in-place mutation of `array[n]`). -/
def updateAt {α : Type} : List α → ℕ → (α → α) → List α
  | [], _, _ => []
  | a :: l, 0, f => f a :: l
  | a :: l, n + 1, f => a :: updateAt l n f

/-- Record one forced collection (`globalThis.gc?.()`). -/
def gcFire (st : RunState) : RunState :=
  { st with gcLog := st.gcLog ++ [st.iterationCount] }

/-- Model of `#handleGarbageCollection`, as a decision whether to force a
collection after the call just handled. -/
def handleGarbageCollection (strategy : GCStrategy) (testCompleted : Bool)
    (iterationCount gcInterval : ℕ) : Bool :=
  match strategy with
  | .never => false
  | .perCycle => false
  | .perTest => testCompleted
  | .periodic => decide (iterationCount % gcInterval = 0)

/-- Model of `#handleIteration` (minus the queue/result lookup already done
by the caller): accumulate the sample, advance the queue, and run the
validator.  Returns the new state, the `testCompleted` flag, and the thrown
validation message, if any. -/
def handleIteration {V R : Type} (ctx : RunCtx V R) (i : ℕ) (runTime : ℚ) (result : R)
    (st : RunState) : (RunState × Bool) × Option String :=
  let e := st.queue.getD i default
  let results := updateAt st.results e.idx fun r =>
    { r with totalTime := r.totalTime + runTime, samples := r.samples ++ [runTime] }
  let runs := e.runs + 1
  let testCompleted : Bool := decide ((runs : ℚ) = ctx.iterations)
  let queue :=
    if testCompleted then st.queue.eraseIdx i
    else updateAt st.queue i fun q => { q with runs := runs }
  let st2 := { st with results := results, queue := queue }
  let vMsg : Option String :=
    match ctx.validate with
    | some f => validationMessage (f result ctx.value)
    | none => none
  ((st2, testCompleted), vMsg)

/-- Outcome of one iteration of the `while (queue.length)` loop body. -/
inductive StepOut where
  | cont (s : RunState)
  | halt (msg : String) (s : RunState)

/-- One iteration of the measured loop: pick a random queue entry
(`#prepareIteration`), invoke its callable, and on success time it, handle
the iteration and apply the GC strategy.  `none` means the queue was empty
and the loop exits; `halt` carries a thrown error (test throw or validation
failure) together with the state at the throw. -/
def step {V R : Type} (ctx : RunCtx V R) (st : RunState) : Option StepOut :=
  match st.queue with
  | [] => none
  | _ :: _ =>
    let i := ctx.pick st.iterationCount % st.queue.length
    let e := st.queue.getD i default
    match (ctx.tests.getD e.idx default).2 st.iterationCount ctx.value with
    | .error msg => some (.halt msg st)
    | .ok result =>
      let runTime := ctx.time st.iterationCount
      let st1 := { st with iterationCount := st.iterationCount + 1 }
      match handleIteration ctx i runTime result st1 with
      | ((st2, _), some msg) => some (.halt msg st2)
      | ((st2, testCompleted), none) =>
        some (.cont
          (if ctx.hasGC ∧
              handleGarbageCollection ctx.gcStrategy testCompleted
                st2.iterationCount ctx.gcInterval = true
           then gcFire st2 else st2))

/-- Index drawn by `#prepareIteration` for the current call. -/
def stepIndex {V R : Type} (ctx : RunCtx V R) (st : RunState) : ℕ :=
  ctx.pick st.iterationCount % st.queue.length

/-- Queue entry selected for the current call. -/
def stepEntry {V R : Type} (ctx : RunCtx V R) (st : RunState) : QEntry :=
  st.queue.getD (stepIndex ctx st) default

/-- Accumulation of one timing sample into a `TestResult` (the
`totalTime += runTime; samples.push(runTime)` pair). -/
def bumpResult (t : ℚ) (r : TestResult) : TestResult :=
  { r with totalTime := r.totalTime + t, samples := r.samples ++ [t] }

/-- Whether the current call finishes its test's quota for the cycle
(`++test.runs === iterations`). -/
def stepCompleted {V R : Type} (ctx : RunCtx V R) (st : RunState) : Bool :=
  decide (((stepEntry ctx st).runs + 1 : ℕ) = (ctx.iterations : ℚ))

/-- The state produced by `#handleIteration` for the current call (before
the garbage-collection step). -/
def iterState {V R : Type} (ctx : RunCtx V R) (st : RunState) : RunState :=
  { results :=
      updateAt st.results (stepEntry ctx st).idx (bumpResult (ctx.time st.iterationCount)),
    queue :=
      if stepCompleted ctx st then st.queue.eraseIdx (stepIndex ctx st)
      else updateAt st.queue (stepIndex ctx st)
        fun q => { q with runs := (stepEntry ctx st).runs + 1 },
    iterationCount := st.iterationCount + 1,
    gcLog := st.gcLog }

/-- The state after a fully successful loop iteration, garbage-collection
step included. -/
def contState {V R : Type} (ctx : RunCtx V R) (st : RunState) : RunState :=
  if ctx.hasGC ∧
      handleGarbageCollection ctx.gcStrategy (stepCompleted ctx st)
        (st.iterationCount + 1) ctx.gcInterval = true
  then gcFire (iterState ctx st) else iterState ctx st

/-- Result of running one cycle's `while` loop (or the whole cycle
sequence): the queue drained (`done`), an error was thrown (`halted`), or
the fuel ran out (modelling divergence of the `while` loop). -/
inductive CycleOut where
  | done (s : RunState)
  | halted (msg : String) (s : RunState)
  | fuelOut

/-- The `while (queue.length)` loop, with explicit fuel bounding the number
of iterations still allowed. -/
def loop {V R : Type} (ctx : RunCtx V R) : ℕ → RunState → CycleOut
  | 0, st =>
    match step ctx st with
    | none => .done st
    | some (.halt m s) => .halted m s
    | some (.cont _) => .fuelOut
  | fuel + 1, st =>
    match step ctx st with
    | none => .done st
    | some (.halt m s) => .halted m s
    | some (.cont s) => loop ctx fuel s

/-- Start of one cycle: the optional `per-cycle` forced collection followed
by building a fresh queue (one entry per result, `runs = 0`). -/
def startCycle {V R : Type} (ctx : RunCtx V R) (st : RunState) : RunState :=
  let st := if ctx.hasGC ∧ ctx.gcStrategy = .perCycle then gcFire st else st
  { st with queue := (List.range st.results.length).map fun i => ⟨0, i⟩ }

/-- The `for (let cycle = 1; cycle <= cycles; cycle++)` loop.  Each cycle
receives the same fuel budget for its inner `while` loop. -/
def runCycles {V R : Type} (ctx : RunCtx V R) : ℕ → ℕ → RunState → CycleOut
  | 0, _, st => .done st
  | k + 1, fuel, st =>
    match loop ctx fuel (startCycle ctx st) with
    | .done s => runCycles ctx k fuel s
    | .halted m s => .halted m s
    | .fuelOut => .fuelOut

/-- State after `this.results = this.tests.map(({name}) => ({name, samples: [], totalTime: 0}))`. -/
def initState {V R : Type} (ctx : RunCtx V R) : RunState :=
  { results := ctx.tests.map fun t => { name := t.1, samples := [], totalTime := 0 },
    queue := [], iterationCount := 0, gcLog := [] }

/-- Modelled from the spec: the file `src/utils/getTCritical95.ts` is not
part of this snapshot (only its import and call site in `Benchmark.ts`
are).  Following the spec's description — a pure, deterministic lookup of
the two-tailed 95%-confidence Student t critical value, matching the
classic table (df=1 → 12.706, df=2 → 4.303, df=5 → 2.571, df=10 → 2.228,
df=30 → 2.042) and converging to the normal-approximation value 1.960
(within 0.01 of it already at df = 100) — this model uses the published
table for 1–30 degrees of freedom and the normal-approximation value
beyond.  `df = 0` never occurs at the call site (there `df = samples.length - 1`
with at least two samples) and is clamped to the df = 1 entry. -/
def tCriticalTable : List ℚ :=
  [12.706, 4.303, 3.182, 2.776, 2.571, 2.447, 2.365, 2.306, 2.262, 2.228,
   2.201, 2.179, 2.160, 2.145, 2.131, 2.120, 2.110, 2.101, 2.093, 2.086,
   2.080, 2.074, 2.069, 2.064, 2.060, 2.056, 2.052, 2.048, 2.045, 2.042]

/-- Modelled from the spec: lookup into the table above, falling back to
the normal-approximation value 1.96 past 30 degrees of freedom. -/
def getTCritical95 (df : ℕ) : ℚ :=
  if df ≤ 30 then tCriticalTable.getD (df - 1) 12.706 else 1.96

/-- Model of the per-result body of `#calculateStatistics`: mean and
ops/second always (the caller guarantees a non-empty sample list), and,
for more than one sample, the Bessel-corrected standard deviation and the
t-based margin of error. -/
noncomputable def calcResultStatistics (r : TestResult) : TestResult :=
  let sampleSize := r.samples.length
  let meanTime : ℚ := r.totalTime / (sampleSize : ℚ)
  let base := { r with meanTime := some meanTime, opsPerSecond := some (1000 / meanTime) }
  if sampleSize ≤ 1 then base
  else
    let degreesOfFreedom := sampleSize - 1
    let variance : ℚ :=
      (r.samples.foldl (fun acc time => acc + (time - meanTime) * (time - meanTime)) 0) /
        (degreesOfFreedom : ℚ)
    let stdDev : ℝ := Real.sqrt (variance : ℝ)
    { base with
      stdDeviation := some stdDev,
      marginOfError :=
        some (((getTCritical95 degreesOfFreedom : ℚ) : ℝ) *
          (stdDev / Real.sqrt (sampleSize : ℝ))) }

/-- Model of `#calculateStatistics`: the `for (const result of this.results)`
loop.  Note the source's `if (!sampleSize) return;` exits the whole
function, leaving the current result and all later results untouched. -/
noncomputable def calculateStatistics : List TestResult → List TestResult
  | [] => []
  | r :: rest =>
    if r.samples.length = 0 then r :: rest
    else calcResultStatistics r :: calculateStatistics rest

/-- The in-place sort performed by `printResults`
(`this.results.sort((a, b) => a.totalTime - b.totalTime)`), modelled by the
stable insertion sort on the same ascending-`totalTime` order (JS `sort` is
stable). -/
def printResultsSort (l : List TestResult) : List TestResult :=
  l.insertionSort fun a b => a.totalTime ≤ b.totalTime

/-- Observable outcome of one `run` invocation: the final `results` array,
whether the cycle loop completed (as opposed to being aborted by a caught
error — the source returns `this` on both paths; the flag records which
path produced the value), and the final iteration count and GC log. -/
structure RunOutput where
  results : List TestResult
  completed : Bool
  iterationCount : ℕ
  gcLog : List ℕ

instance : Inhabited RunOutput :=
  ⟨{ results := [], completed := false, iterationCount := 0, gcLog := [] }⟩

/-- Model of `Benchmark.run`: reset `results`, run the cycles, and on the
successful path compute statistics and (when `verbosity > 0`) let
`printResults` sort the results.  A caught error (`halted`) still produces
a value — the promise resolves — carrying the partial results; `none`
models a diverging run (fuel exhausted). -/
noncomputable def run {V R : Type} (ctx : RunCtx V R) (verbosity : ℕ) (fuel : ℕ) :
    Option RunOutput :=
  match runCycles ctx ctx.cycles fuel (initState ctx) with
  | .fuelOut => none
  | .halted _ s =>
    some { results := s.results, completed := false,
           iterationCount := s.iterationCount, gcLog := s.gcLog }
  | .done s =>
    let results := calculateStatistics s.results
    let results := if verbosity > 0 then printResultsSort results else results
    some { results := results, completed := true,
           iterationCount := s.iterationCount, gcLog := s.gcLog }

/-- States visited by a run: the post-reset initial state, cycle starts,
and the states after every loop iteration, including the state carried by a
thrown error. -/
inductive Reach {V R : Type} (ctx : RunCtx V R) : RunState → Prop where
  | init : Reach ctx (initState ctx)
  | newCycle {st} : Reach ctx st → Reach ctx (startCycle ctx st)
  | stepCont {st s} : Reach ctx st → step ctx st = some (.cont s) → Reach ctx s
  | stepHalt {st s m} : Reach ctx st → step ctx st = some (.halt m s) → Reach ctx s

/-- States visited by a run that has not (yet) thrown: as `Reach` but
without the post-throw states. -/
inductive ReachC {V R : Type} (ctx : RunCtx V R) : RunState → Prop where
  | init : ReachC ctx (initState ctx)
  | newCycle {st} : ReachC ctx st → ReachC ctx (startCycle ctx st)
  | stepCont {st s} : ReachC ctx st → step ctx st = some (.cont s) → ReachC ctx s

/-- A context whose callables never throw and whose validator (if any)
always passes: the hypotheses of a run that finishes normally. -/
def NeverFails {V R : Type} (ctx : RunCtx V R) : Prop :=
  (∀ t ∈ ctx.tests, ∀ n, ∃ r, t.2 n ctx.value = Except.ok r) ∧
  (∀ f, ctx.validate = some f → ∀ r, validationMessage (f r ctx.value) = none)

/-- Mid-cycle invariant tying the queue to the per-test sample counts:
`s0 j` is test `j`'s sample count at the start of the cycle and `C` the
integer call count.  Queue indices are a subsequence of `0..N-1`; a queued
test has completed `runs < C` calls of the cycle, a dequeued test all `C`. -/
def QueueInvariant {V R : Type} (ctx : RunCtx V R) (C : ℕ) (s0 : ℕ → ℕ)
    (st : RunState) : Prop :=
  st.results.length = ctx.tests.length ∧
  (st.queue.map QEntry.idx).Sublist (List.range ctx.tests.length) ∧
  (∀ e ∈ st.queue, e.runs < C ∧
    (st.results.getD e.idx default).samples.length = s0 e.idx + e.runs) ∧
  (∀ j < ctx.tests.length, j ∉ st.queue.map QEntry.idx →
    (st.results.getD j default).samples.length = s0 j + C)

/-- Number of calls still owed in the current cycle. -/
def cycleMeasure (C : ℕ) (st : RunState) : ℕ :=
  (st.queue.map fun e => C - e.runs).sum

/-- Mid-run invariant for completed-run reasoning: a test is either still
queued in the current cycle or already owns at least one sample. -/
def PosInv {V R : Type} (ctx : RunCtx V R) (st : RunState) : Prop :=
  st.results.length = ctx.tests.length ∧
  ∀ j < ctx.tests.length,
    j ∈ st.queue.map QEntry.idx ∨ 1 ≤ (st.results.getD j default).samples.length

/-- During the measured loop no statistics field is ever written: the
dispersion fields stay absent until `#calculateStatistics`. -/
def NoDispersion (st : RunState) : Prop :=
  ∀ r ∈ st.results, r.stdDeviation = none ∧ r.marginOfError = none

/-- Concrete context used by witnesses: one test that always succeeds,
taking one (model) millisecond per call, two calls per cycle, two cycles,
periodic GC every two calls, deterministic oracles. -/
def witCtx : RunCtx Unit Unit :=
  { tests := [("t", fun _ _ => Except.ok ())],
    iterations := 2, cycles := 2, value := (), validate := none,
    gcStrategy := .periodic, gcInterval := 2, hasGC := true,
    pick := fun _ => 0, time := fun _ => 1 }

/-- Validator that rejects every result with the message "boom". -/
def boomValidator : Unit → Unit → ValidateReturn := fun _ _ => .str "boom"

/-- Concrete context whose validator always fails with "boom": one test,
two requested calls, one cycle. -/
def boomCtx : RunCtx Unit Unit :=
  { tests := [("t", fun _ _ => Except.ok ())],
    iterations := 2, cycles := 1, value := (),
    validate := some boomValidator,
    gcStrategy := .periodic, gcInterval := 2, hasGC := true,
    pick := fun _ => 0, time := fun _ => 1 }

/-- State carried by the thrown validation error of the `boomCtx` run. -/
def boomHaltState : RunState :=
  match runCycles boomCtx boomCtx.cycles 5 (initState boomCtx) with
  | .halted _ s => s
  | _ => default

/-- Message of the thrown validation error of the `boomCtx` run. -/
def boomHaltMsg : String :=
  match runCycles boomCtx boomCtx.cycles 5 (initState boomCtx) with
  | .halted m _ => m
  | _ => ""

/-- The calls (identified by the run-global count of completed calls, so
the first call is 1) at which the `periodic` strategy forces a collection:
exactly the multiples of `gcInterval` among `1..c`. -/
def periodicLog (gcInterval c : ℕ) : List ℕ :=
  ((List.range c).map fun n => n + 1).filter fun n => n % gcInterval == 0

instance : IsTotal TestResult fun a b => a.totalTime ≤ b.totalTime :=
  ⟨fun a b => le_total a.totalTime b.totalTime⟩

instance : IsTrans TestResult fun a b => a.totalTime ≤ b.totalTime :=
  ⟨fun _ _ _ => le_trans⟩

/-- Output of the concrete successful witness run. -/
noncomputable def witOut : RunOutput := (run witCtx 0 5).getD default

/-- Output of the concrete successful witness run at verbosity 1 (with the
`printResults` sort applied). -/
noncomputable def witOutV : RunOutput := (run witCtx 1 5).getD default

/-- Output of the concrete aborted (validator-failing) witness run. -/
noncomputable def boomOut : RunOutput := (run boomCtx 0 5).getD default

theorem length_updateAt {α : Type} (l : List α) (n : ℕ) (f : α → α) :
    (updateAt l n f).length = l.length := by
  induction l generalizing n with
  | nil => rfl
  | cons a l ih =>
    cases n with
    | zero => rfl
    | succ n => simp [updateAt, ih]

theorem getD_updateAt_self {α : Type} (l : List α) (n : ℕ) (f : α → α) (d : α)
    (h : n < l.length) : (updateAt l n f).getD n d = f (l.getD n d) := by
  induction l generalizing n with
  | nil => simp at h
  | cons a l ih =>
    cases n with
    | zero => rfl
    | succ n =>
      simp only [updateAt, List.getD_cons_succ]
      exact ih n (by simpa using h)

theorem getD_updateAt_ne {α : Type} (l : List α) {m n : ℕ} (f : α → α) (d : α)
    (h : m ≠ n) : (updateAt l n f).getD m d = l.getD m d := by
  induction l generalizing m n with
  | nil => rfl
  | cons a l ih =>
    cases n with
    | zero =>
      cases m with
      | zero => exact absurd rfl h
      | succ m => rfl
    | succ n =>
      cases m with
      | zero => rfl
      | succ m =>
        simp only [updateAt, List.getD_cons_succ]
        exact ih (by omega)

theorem mem_updateAt {α : Type} {a : α} {l : List α} {n : ℕ} {f : α → α} (d : α)
    (h : a ∈ updateAt l n f) : a ∈ l ∨ (n < l.length ∧ a = f (l.getD n d)) := by
  induction l generalizing n with
  | nil => simp [updateAt] at h
  | cons b l ih =>
    cases n with
    | zero =>
      simp only [updateAt] at h
      rcases List.mem_cons.mp h with h | h
      · exact Or.inr ⟨by simp, by simpa using h⟩
      · exact Or.inl (List.mem_cons_of_mem _ h)
    | succ n =>
      simp only [updateAt] at h
      rcases List.mem_cons.mp h with h | h
      · exact Or.inl (h ▸ List.mem_cons_self _ _)
      · rcases ih h with h | ⟨hn, he⟩
        · exact Or.inl (List.mem_cons_of_mem _ h)
        · exact Or.inr ⟨by simpa using hn, by simpa using he⟩

theorem map_updateAt_of {α β : Type} (g : α → β) (f : α → α)
    (hg : ∀ a, g (f a) = g a) (l : List α) (n : ℕ) :
    (updateAt l n f).map g = l.map g := by
  induction l generalizing n with
  | nil => rfl
  | cons a l ih =>
    cases n with
    | zero => simp [updateAt, hg]
    | succ n => simp [updateAt, ih]

theorem map_updateAt_set {α β : Type} (g : α → β) (l : List α) (n : ℕ) (f : α → α) (d : α)
    (h : n < l.length) :
    (updateAt l n f).map g = (l.map g).set n (g (f (l.getD n d))) := by
  induction l generalizing n with
  | nil => simp at h
  | cons a l ih =>
    cases n with
    | zero => simp [updateAt]
    | succ n =>
      simp only [updateAt, List.map_cons, List.getD_cons_succ, List.set]
      exact congrArg _ (ih n (by simpa using h))

theorem map_eraseIdx {α β : Type} (g : α → β) :
    ∀ (l : List α) (i : ℕ), (List.eraseIdx l i).map g = List.eraseIdx (l.map g) i
  | [], _ => rfl
  | _ :: _, 0 => rfl
  | a :: l, i + 1 => by simp [List.eraseIdx, map_eraseIdx g l i]

theorem getD_mem {α : Type} {l : List α} {n : ℕ} (h : n < l.length) (d : α) :
    l.getD n d ∈ l := by
  induction l generalizing n with
  | nil => simp at h
  | cons a l ih =>
    cases n with
    | zero => exact List.mem_cons_self _ _
    | succ n => exact List.mem_cons_of_mem _ (ih (by simpa using h))

theorem sum_eraseIdx_add (l : List ℕ) (i : ℕ) (h : i < l.length) (d : ℕ) :
    (l.eraseIdx i).sum + l.getD i d = l.sum := by
  induction l generalizing i with
  | nil => simp at h
  | cons a l ih =>
    cases i with
    | zero => simp [List.eraseIdx, Nat.add_comm]
    | succ i =>
      simp only [List.eraseIdx, List.sum_cons, List.getD_cons_succ]
      have := ih i (by simpa using h)
      omega

theorem sum_set_add (l : List ℕ) (i x : ℕ) (h : i < l.length) (d : ℕ) :
    (l.set i x).sum + l.getD i d = l.sum + x := by
  induction l generalizing i with
  | nil => simp at h
  | cons a l ih =>
    cases i with
    | zero => simp [List.set]; omega
    | succ i =>
      simp only [List.set, List.sum_cons, List.getD_cons_succ]
      have := ih i (by simpa using h)
      omega

theorem mem_eraseIdx_ne {α : Type} {l : List α} (hnd : l.Nodup) {i : ℕ}
    (h : i < l.length) {a : α} (ha : a ∈ l.eraseIdx i) (d : α) : a ≠ l.getD i d := by
  induction l generalizing i with
  | nil => simp at h
  | cons b l ih =>
    rcases List.nodup_cons.mp hnd with ⟨hb, hl⟩
    cases i with
    | zero =>
      simp only [List.eraseIdx] at ha
      intro he
      simp only [List.getD_cons_zero] at he
      exact hb (he ▸ ha)
    | succ i =>
      have hi : i < l.length := by simpa using h
      simp only [List.eraseIdx] at ha
      simp only [List.getD_cons_succ]
      rcases List.mem_cons.mp ha with ha | ha
      · intro he
        exact hb (by rw [ha.symm.trans he]; exact getD_mem hi d)
      · exact ih hl hi ha

theorem foldl_add_map (f : ℚ → ℚ) :
    ∀ (l : List ℚ) (a : ℚ), l.foldl (fun acc t => acc + f t) a = a + (l.map f).sum
  | [], a => by simp
  | x :: l, a => by
    simp only [List.foldl_cons, List.map_cons, List.sum_cons]
    rw [foldl_add_map f l (a + f x), add_assoc]

theorem step_empty {V R : Type} (ctx : RunCtx V R) (st : RunState)
    (h : st.queue = []) : step ctx st = none := by
  unfold step
  rw [h]

theorem step_eq {V R : Type} (ctx : RunCtx V R) (st : RunState) (h : st.queue ≠ []) :
    step ctx st =
      match (ctx.tests.getD (stepEntry ctx st).idx default).2 st.iterationCount ctx.value with
      | .error msg => some (.halt msg st)
      | .ok res =>
        match (match ctx.validate with
               | some f => validationMessage (f res ctx.value)
               | none => none : Option String) with
        | some msg => some (.halt msg (iterState ctx st))
        | none => some (.cont (contState ctx st)) := by
  obtain ⟨q, qs, hq⟩ := List.exists_cons_of_ne_nil h
  unfold step
  rw [hq]
  simp only [← hq]
  rcases hout : (ctx.tests.getD (stepEntry ctx st).idx default).2 st.iterationCount ctx.value with
    msg | res
  · simp only [stepEntry, stepIndex] at hout
    rw [hout]
  · simp only [stepEntry, stepIndex] at hout
    rw [hout]
    simp only [handleIteration, stepEntry, stepIndex, stepCompleted, iterState, contState,
      bumpResult]
    rcases hv : (match ctx.validate with
                 | some f => validationMessage (f res ctx.value)
                 | none => none : Option String) with _ | msg <;>
      simp only [hv] <;> rfl

theorem step_cont_state {V R : Type} (ctx : RunCtx V R) (st s : RunState)
    (h : step ctx st = some (.cont s)) : st.queue ≠ [] ∧ s = contState ctx st := by
  by_cases hq : st.queue = []
  · rw [step_empty ctx st hq] at h
    cases h
  · refine ⟨hq, ?_⟩
    rw [step_eq ctx st hq] at h
    rcases hout : (ctx.tests.getD (stepEntry ctx st).idx default).2 st.iterationCount ctx.value
      with msg | res
    · simp only [hout] at h
      cases h
    · simp only [hout] at h
      rcases hv : (match ctx.validate with
                   | some f => validationMessage (f res ctx.value)
                   | none => none : Option String) with _ | msg
      · rw [hv] at h
        injection h with h2
        injection h2 with h3
        exact h3.symm
      · rw [hv] at h
        cases h

theorem step_halt_inv {V R : Type} (ctx : RunCtx V R) (st s : RunState) (m : String)
    (h : step ctx st = some (.halt m s)) :
    st.queue ≠ [] ∧
      (((ctx.tests.getD (stepEntry ctx st).idx default).2 st.iterationCount ctx.value =
          Except.error m ∧ s = st) ∨
       (∃ res f,
          (ctx.tests.getD (stepEntry ctx st).idx default).2 st.iterationCount ctx.value =
            Except.ok res ∧
          ctx.validate = some f ∧ validationMessage (f res ctx.value) = some m ∧
          s = iterState ctx st)) := by
  by_cases hq : st.queue = []
  · rw [step_empty ctx st hq] at h
    cases h
  · refine ⟨hq, ?_⟩
    rw [step_eq ctx st hq] at h
    rcases hout : (ctx.tests.getD (stepEntry ctx st).idx default).2 st.iterationCount ctx.value
      with msg | res
    · simp only [hout] at h
      injection h with h2
      injection h2 with hm hs
      subst hm
      subst hs
      exact Or.inl ⟨rfl, rfl⟩
    · simp only [hout] at h
      rcases hval : ctx.validate with _ | f
      · simp only [hval] at h
        cases h
      · simp only [hval] at h
        rcases hv : validationMessage (f res ctx.value) with _ | msg
        · simp only [hv] at h
          cases h
        · simp only [hv] at h
          injection h with h2
          injection h2 with hm hs
          subst hm
          subst hs
          exact Or.inr ⟨res, f, rfl, rfl, hv, rfl⟩

theorem loop_done_inv {V R : Type} (ctx : RunCtx V R) (I : RunState → Prop)
    (hstep : ∀ s t, I s → step ctx s = some (.cont t) → I t) :
    ∀ (fuel : ℕ) (st t : RunState), I st → loop ctx fuel st = .done t → I t := by
  intro fuel
  induction fuel with
  | zero =>
    intro st t hI h
    unfold loop at h
    cases hs : step ctx st with
    | none =>
      simp only [hs] at h
      cases h
      exact hI
    | some so =>
      cases so <;> simp only [hs] at h <;> cases h
  | succ fuel ih =>
    intro st t hI h
    unfold loop at h
    cases hs : step ctx st with
    | none =>
      simp only [hs] at h
      cases h
      exact hI
    | some so =>
      cases so with
      | cont s =>
        simp only [hs] at h
        exact ih s t (hstep st s hI hs) h
      | halt m s =>
        simp only [hs] at h
        cases h

theorem loop_halt_src {V R : Type} (ctx : RunCtx V R) (I : RunState → Prop)
    (hstep : ∀ s t, I s → step ctx s = some (.cont t) → I t) :
    ∀ (fuel : ℕ) (st : RunState) (m : String) (t : RunState), I st →
      loop ctx fuel st = .halted m t → ∃ u, I u ∧ step ctx u = some (.halt m t) := by
  intro fuel
  induction fuel with
  | zero =>
    intro st m t hI h
    unfold loop at h
    cases hs : step ctx st with
    | none =>
      simp only [hs] at h
      cases h
    | some so =>
      cases so with
      | cont s =>
        simp only [hs] at h
        cases h
      | halt m2 s =>
        simp only [hs] at h
        injection h with h1 h2
        exact ⟨st, hI, h1 ▸ h2 ▸ hs⟩
  | succ fuel ih =>
    intro st m t hI h
    unfold loop at h
    cases hs : step ctx st with
    | none =>
      simp only [hs] at h
      cases h
    | some so =>
      cases so with
      | cont s =>
        simp only [hs] at h
        exact ih s m t (hstep st s hI hs) h
      | halt m2 s =>
        simp only [hs] at h
        injection h with h1 h2
        exact ⟨st, hI, h1 ▸ h2 ▸ hs⟩

theorem runCycles_done_inv {V R : Type} (ctx : RunCtx V R) (I : RunState → Prop)
    (hstep : ∀ s t, I s → step ctx s = some (.cont t) → I t)
    (hcycle : ∀ s, I s → I (startCycle ctx s)) :
    ∀ (k fuel : ℕ) (st t : RunState), I st → runCycles ctx k fuel st = .done t → I t := by
  intro k
  induction k with
  | zero =>
    intro fuel st t hI h
    unfold runCycles at h
    cases h
    exact hI
  | succ k ih =>
    intro fuel st t hI h
    unfold runCycles at h
    cases hl : loop ctx fuel (startCycle ctx st) with
    | done s =>
      simp only [hl] at h
      exact ih fuel s t (loop_done_inv ctx I hstep fuel _ s (hcycle st hI) hl) h
    | halted m s =>
      simp only [hl] at h
      cases h
    | fuelOut =>
      simp only [hl] at h
      cases h

theorem runCycles_halt_src {V R : Type} (ctx : RunCtx V R) (I : RunState → Prop)
    (hstep : ∀ s t, I s → step ctx s = some (.cont t) → I t)
    (hcycle : ∀ s, I s → I (startCycle ctx s)) :
    ∀ (k fuel : ℕ) (st : RunState) (m : String) (t : RunState), I st →
      runCycles ctx k fuel st = .halted m t →
      ∃ u, I u ∧ step ctx u = some (.halt m t) := by
  intro k
  induction k with
  | zero =>
    intro fuel st m t hI h
    unfold runCycles at h
    cases h
  | succ k ih =>
    intro fuel st m t hI h
    unfold runCycles at h
    cases hl : loop ctx fuel (startCycle ctx st) with
    | done s =>
      simp only [hl] at h
      exact ih fuel s m t (loop_done_inv ctx I hstep fuel _ s (hcycle st hI) hl) h
    | halted m2 s =>
      simp only [hl] at h
      injection h with h1 h2
      exact h1 ▸ h2 ▸ loop_halt_src ctx I hstep fuel _ m2 s (hcycle st hI) hl
    | fuelOut =>
      simp only [hl] at h
      cases h

theorem getTCritical95_of_gt (n : ℕ) (h : 30 < n) : getTCritical95 n = 1.96 := by
  unfold getTCritical95
  rw [if_neg (by omega)]

set_option maxHeartbeats 2000000 in
theorem getTCritical95_step (n : ℕ) : getTCritical95 (n + 1) ≤ getTCritical95 n := by
  rcases le_or_lt n 30 with h | h
  · interval_cases n <;> norm_num [getTCritical95, tCriticalTable]
  · rw [getTCritical95_of_gt _ (by omega), getTCritical95_of_gt _ h]

theorem getTCritical95_antitone {m n : ℕ} (h : m ≤ n) :
    getTCritical95 n ≤ getTCritical95 m := by
  induction n, h using Nat.le_induction with
  | base => exact le_refl _
  | succ n hmn ih => exact le_trans (getTCritical95_step n) ih

theorem gcFire_results (st : RunState) : (gcFire st).results = st.results := rfl

theorem contState_results {V R : Type} (ctx : RunCtx V R) (st : RunState) :
    (contState ctx st).results = (iterState ctx st).results := by
  unfold contState
  split <;> rfl

theorem contState_queue {V R : Type} (ctx : RunCtx V R) (st : RunState) :
    (contState ctx st).queue = (iterState ctx st).queue := by
  unfold contState
  split <;> rfl

theorem contState_iterationCount {V R : Type} (ctx : RunCtx V R) (st : RunState) :
    (contState ctx st).iterationCount = st.iterationCount + 1 := by
  unfold contState
  split <;> rfl

theorem startCycle_results {V R : Type} (ctx : RunCtx V R) (st : RunState) :
    (startCycle ctx st).results = st.results := by
  unfold startCycle
  split <;> rfl

theorem startCycle_iterationCount {V R : Type} (ctx : RunCtx V R) (st : RunState) :
    (startCycle ctx st).iterationCount = st.iterationCount := by
  unfold startCycle
  split <;> rfl

theorem startCycle_queue {V R : Type} (ctx : RunCtx V R) (st : RunState) :
    (startCycle ctx st).queue = (List.range st.results.length).map fun i => ⟨0, i⟩ := by
  unfold startCycle
  split <;> rfl

theorem calcResultStatistics_samples (r : TestResult) :
    (calcResultStatistics r).samples = r.samples := by
  unfold calcResultStatistics
  dsimp only
  split <;> rfl

theorem calcResultStatistics_totalTime (r : TestResult) :
    (calcResultStatistics r).totalTime = r.totalTime := by
  unfold calcResultStatistics
  dsimp only
  split <;> rfl

theorem mem_calculateStatistics {l : List TestResult} {r2 : TestResult}
    (h : r2 ∈ calculateStatistics l) :
    ∃ r ∈ l, r2.samples = r.samples ∧ r2.totalTime = r.totalTime := by
  induction l with
  | nil =>
    unfold calculateStatistics at h
    simp at h
  | cons r rest ih =>
    unfold calculateStatistics at h
    by_cases h0 : r.samples.length = 0
    · rw [if_pos h0] at h
      exact ⟨r2, h, rfl, rfl⟩
    · rw [if_neg h0] at h
      rcases List.mem_cons.mp h with h | h
      · exact ⟨r, List.mem_cons_self _ _,
          h ▸ calcResultStatistics_samples r, h ▸ calcResultStatistics_totalTime r⟩
      · rcases ih h with ⟨r3, hr3, hs, ht⟩
        exact ⟨r3, List.mem_cons_of_mem _ hr3, hs, ht⟩

theorem mem_printResultsSort {l : List TestResult} {r : TestResult} :
    r ∈ printResultsSort l ↔ r ∈ l :=
  (List.perm_insertionSort _ l).mem_iff

theorem printResultsSort_length (l : List TestResult) :
    (printResultsSort l).length = l.length :=
  (List.perm_insertionSort _ l).length_eq

/-- Per-state form of the C6 invariant. -/
def stateInv (st : RunState) : Prop :=
  ∀ r ∈ st.results, r.totalTime = r.samples.sum

theorem stateInv_step {V R : Type} (ctx : RunCtx V R) {s t : RunState}
    (h : stateInv s) (hs : step ctx s = some (.cont t)) : stateInv t := by
  obtain ⟨-, rfl⟩ := step_cont_state ctx s t hs
  intro r hr
  rw [contState_results] at hr
  unfold iterState at hr
  simp only at hr
  rcases mem_updateAt default hr with hr | ⟨hlt, rfl⟩
  · exact h r hr
  · unfold bumpResult
    simp only [List.sum_append, List.sum_cons, List.sum_nil, add_zero]
    rw [h _ (getD_mem hlt default)]

theorem stateInv_halt {V R : Type} (ctx : RunCtx V R) {s t : RunState} {m : String}
    (h : stateInv s) (hs : step ctx s = some (.halt m t)) : stateInv t := by
  rcases step_halt_inv ctx s t m hs with ⟨hq, hcase⟩
  rcases hcase with ⟨-, rfl⟩ | ⟨res, f, -, -, -, rfl⟩
  · exact h
  · intro r hr
    unfold iterState at hr
    simp only at hr
    rcases mem_updateAt default hr with hr | ⟨hlt, rfl⟩
    · exact h r hr
    · unfold bumpResult
      simp only [List.sum_append, List.sum_cons, List.sum_nil, add_zero]
      rw [h _ (getD_mem hlt default)]

theorem stateInv_startCycle {V R : Type} (ctx : RunCtx V R) {s : RunState}
    (h : stateInv s) : stateInv (startCycle ctx s) := by
  intro r hr
  rw [startCycle_results] at hr
  exact h r hr

theorem stateInv_init {V R : Type} (ctx : RunCtx V R) : stateInv (initState ctx) := by
  intro r hr
  unfold initState at hr
  simp only at hr
  rcases List.mem_map.mp hr with ⟨t, -, rfl⟩
  rfl

theorem stateInv_reach {V R : Type} (ctx : RunCtx V R) {st : RunState}
    (h : Reach ctx st) : stateInv st := by
  induction h with
  | init => exact stateInv_init ctx
  | newCycle _ ih => exact stateInv_startCycle ctx ih
  | stepCont _ hs ih => exact stateInv_step ctx ih hs
  | stepHalt _ hs ih => exact stateInv_halt ctx ih hs

/-- Claim C6: at every point during and after a run, each TestResult's
`totalTime` equals the sum of its `samples` — every loop iteration appends
one sample and adds the same number to `totalTime`, starting from zero and
an empty list at the per-run reset; the statistics pass and the result
sorting leave both fields unchanged. -/
theorem C6_totalTime_eq_sum_samples {V R : Type} (ctx : RunCtx V R) :
    (∀ st, Reach ctx st → ∀ r ∈ st.results, r.totalTime = r.samples.sum) ∧
    (∀ verbosity fuel out, run ctx verbosity fuel = some out →
      ∀ r ∈ out.results, r.totalTime = r.samples.sum) := by
  constructor
  · intro st h
    exact stateInv_reach ctx h
  · intro verbosity fuel out hrun r hr
    unfold run at hrun
    cases hrc : runCycles ctx ctx.cycles fuel (initState ctx) with
    | fuelOut => rw [hrc] at hrun; cases hrun
    | halted m s =>
      rw [hrc] at hrun
      injection hrun with hrun
      subst hrun
      simp only at hr
      rcases runCycles_halt_src ctx stateInv (fun s t hI hs => stateInv_step ctx hI hs)
        (fun s hI => stateInv_startCycle ctx hI) ctx.cycles fuel (initState ctx) m s
        (stateInv_init ctx) hrc with ⟨u, hu, hustep⟩
      exact stateInv_halt ctx hu hustep r hr
    | done s =>
      rw [hrc] at hrun
      injection hrun with hrun
      subst hrun
      simp only at hr
      have hsinv : stateInv s :=
        runCycles_done_inv ctx stateInv (fun s t hI hs => stateInv_step ctx hI hs)
          (fun s hI => stateInv_startCycle ctx hI) ctx.cycles fuel (initState ctx) s
          (stateInv_init ctx) hrc
      have hr2 : r ∈ calculateStatistics s.results := by
        rcases Nat.lt_or_ge 0 verbosity with hv | hv
        · rw [if_pos hv] at hr
          exact mem_printResultsSort.mp hr
        · rw [if_neg (by omega)] at hr
          exact hr
      rcases mem_calculateStatistics hr2 with ⟨r3, hr3, hs3, ht3⟩
      rw [hs3, ht3]
      exact hsinv r3 hr3

/-- Witness for C6: the invariant evaluated on the concrete witness run. -/
theorem C6_totalTime_eq_sum_samples_witness :
    run witCtx 0 5 = some witOut ∧
    (∀ r ∈ witOut.results, r.totalTime = r.samples.sum) :=
  ⟨rfl, (C6_totalTime_eq_sum_samples witCtx).2 0 5 witOut rfl⟩

/-- Claim C4: the modelled `getTCritical95` is a pure function of its
degrees-of-freedom argument returning the two-tailed 95%-confidence Student
t critical value: 12.706 at df = 1, 2.228 at df = 10, monotonically
decreasing, never below 1.960, and within 0.01 of 1.960 at df = 100 and
df = 10000. -/
theorem C4_getTCritical95_spec :
    getTCritical95 1 = 12.706 ∧
    getTCritical95 10 = 2.228 ∧
    (∀ m n : ℕ, m ≤ n → getTCritical95 n ≤ getTCritical95 m) ∧
    (∀ n : ℕ, 1.96 ≤ getTCritical95 n) ∧
    |getTCritical95 100 - 1.96| ≤ 0.01 ∧
    |getTCritical95 10000 - 1.96| ≤ 0.01 := by
  refine ⟨by norm_num [getTCritical95, tCriticalTable],
    by norm_num [getTCritical95, tCriticalTable], ?_, ?_,
    by rw [getTCritical95_of_gt 100 (by norm_num)]; norm_num,
    by rw [getTCritical95_of_gt 10000 (by norm_num)]; norm_num⟩
  · intro m n h
    exact getTCritical95_antitone h
  · intro n
    rcases le_or_lt n 30 with h | h
    · calc (1.96 : ℚ) ≤ getTCritical95 31 := by
            rw [getTCritical95_of_gt 31 (by norm_num)]
        _ ≤ getTCritical95 n := getTCritical95_antitone (by omega)
    · rw [getTCritical95_of_gt _ h]

/-- Witness for C4 at concrete inputs: monotonicity applied at 2 ≤ 200
together with the df = 1 table value. -/
theorem C4_getTCritical95_spec_witness :
    (2 ≤ 200 ∧ getTCritical95 200 ≤ getTCritical95 2) ∧ getTCritical95 1 = 12.706 :=
  ⟨⟨by norm_num, C4_getTCritical95_spec.2.2.1 2 200 (by norm_num)⟩,
    C4_getTCritical95_spec.1⟩

theorem getD_map {α β : Type} (f : α → β) (l : List α) (n : ℕ) (d : α) :
    (l.map f).getD n (f d) = f (l.getD n d) := by
  induction l generalizing n with
  | nil => rfl
  | cons a l ih =>
    cases n with
    | zero => rfl
    | succ n =>
      simp only [List.map_cons, List.getD_cons_succ]
      exact ih n

theorem mem_eraseIdx_of_ne {α : Type} {a : α} {l : List α} {i : ℕ} (d : α)
    (ha : a ∈ l) (hi : i < l.length) (hne : a ≠ l.getD i d) : a ∈ l.eraseIdx i := by
  induction l generalizing i with
  | nil => simp at ha
  | cons b l ih =>
    cases i with
    | zero =>
      simp only [List.eraseIdx]
      rcases List.mem_cons.mp ha with h | h
      · exact absurd (by simpa using h) hne
      · exact h
    | succ i =>
      simp only [List.eraseIdx]
      rcases List.mem_cons.mp ha with h | h
      · exact h ▸ List.mem_cons_self _ _
      · exact List.mem_cons_of_mem _
          (ih h (by simpa using hi) (by simpa using hne))

theorem step_none_iff {V R : Type} (ctx : RunCtx V R) (st : RunState) :
    step ctx st = none ↔ st.queue = [] := by
  constructor
  · intro h
    by_contra hq
    rw [step_eq ctx st hq] at h
    rcases hout : (ctx.tests.getD (stepEntry ctx st).idx default).2 st.iterationCount ctx.value
      with msg | res
    · simp only [hout] at h
      cases h
    · simp only [hout] at h
      rcases hv : (match ctx.validate with
                   | some f => validationMessage (f res ctx.value)
                   | none => none : Option String) with _ | msg <;>
        simp only [hv] at h <;> cases h
  · exact step_empty ctx st

theorem loop_done_queue_nil {V R : Type} (ctx : RunCtx V R) :
    ∀ (fuel : ℕ) (st t : RunState), loop ctx fuel st = .done t → t.queue = [] := by
  intro fuel
  induction fuel with
  | zero =>
    intro st t h
    unfold loop at h
    cases hs : step ctx st with
    | none =>
      simp only [hs] at h
      cases h
      exact (step_none_iff ctx st).mp hs
    | some so => cases so <;> simp only [hs] at h <;> cases h
  | succ fuel ih =>
    intro st t h
    unfold loop at h
    cases hs : step ctx st with
    | none =>
      simp only [hs] at h
      cases h
      exact (step_none_iff ctx st).mp hs
    | some so =>
      cases so with
      | cont s =>
        simp only [hs] at h
        exact ih s t h
      | halt m s =>
        simp only [hs] at h
        cases h

theorem loop_of_step_halt {V R : Type} (ctx : RunCtx V R) {st t : RunState} {m : String}
    (hs : step ctx st = some (.halt m t)) (fuel : ℕ) : loop ctx fuel st = .halted m t := by
  cases fuel <;> unfold loop <;> rw [hs]

/-- Claim C1: if a test callable throws or a validator fails during the
cycle loop, the whole run stops there — `runCycles` surfaces the thrown
error, which arose from a single failing `step` out of a reachable state —
and `run` still resolves (returns `some`), with exactly the partial results
accumulated at the failing call. -/
theorem C1_run_error_resolves {V R : Type} (ctx : RunCtx V R)
    (verbosity fuel : ℕ) (m : String) (st : RunState)
    (h : runCycles ctx ctx.cycles fuel (initState ctx) = .halted m st) :
    run ctx verbosity fuel =
      some { results := st.results, completed := false,
             iterationCount := st.iterationCount, gcLog := st.gcLog } ∧
    ∃ u, Reach ctx u ∧ step ctx u = some (.halt m st) := by
  constructor
  · unfold run
    rw [h]
  · exact runCycles_halt_src ctx (Reach ctx)
      (fun s t hI hs => Reach.stepCont hI hs)
      (fun s hI => Reach.newCycle hI) ctx.cycles fuel (initState ctx) m st Reach.init h

theorem getD_range_map {β : Type} (g : ℕ → β) (n k : ℕ) (d : β) (h : k < n) :
    ((List.range n).map g).getD k d = g k := by
  rw [List.getD_eq_getElem _ _ (by simpa using h)]
  simp

theorem step_eq_halt_validation {V R : Type} (ctx : RunCtx V R) {st : RunState}
    (hq : st.queue ≠ []) {res : R}
    (hres : (ctx.tests.getD (stepEntry ctx st).idx default).2 st.iterationCount ctx.value =
      Except.ok res)
    {f : R → V → ValidateReturn} (hvf : ctx.validate = some f) {m : String}
    (hm : validationMessage (f res ctx.value) = some m) :
    step ctx st = some (.halt m (iterState ctx st)) := by
  rw [step_eq ctx st hq, hres]
  simp only [hvf, hm]

theorem step_eq_cont_of {V R : Type} (ctx : RunCtx V R) {st : RunState}
    (hq : st.queue ≠ []) {res : R}
    (hres : (ctx.tests.getD (stepEntry ctx st).idx default).2 st.iterationCount ctx.value =
      Except.ok res)
    (hv : (match ctx.validate with
           | some f => validationMessage (f res ctx.value)
           | none => none : Option String) = none) :
    step ctx st = some (.cont (contState ctx st)) := by
  rw [step_eq ctx st hq, hres]
  simp only [hv]

theorem initState_results_length {V R : Type} (ctx : RunCtx V R) :
    (initState ctx).results.length = ctx.tests.length := by
  simp [initState]

theorem initState_results_map_len {V R : Type} (ctx : RunCtx V R) :
    (initState ctx).results.map (fun r => r.samples.length) =
      List.replicate ctx.tests.length 0 := by
  unfold initState
  simp only [List.map_map]
  generalize ctx.tests = l
  induction l with
  | nil => rfl
  | cons t ts ih => simp [List.replicate_succ, ih]

theorem initState_results_getD_samples {V R : Type} (ctx : RunCtx V R) (j : ℕ)
    (h : j < ctx.tests.length) :
    ((initState ctx).results.getD j default).samples = [] := by
  unfold initState
  simp only
  rw [List.getD_eq_getElem _ _ (by simpa using h)]
  simp

/-- Witness for C1: the concrete validator-failing run halts, and `run`
still resolves with the partial results of the halt state. -/
theorem C1_run_error_resolves_witness :
    runCycles boomCtx boomCtx.cycles 5 (initState boomCtx) =
      .halted boomHaltMsg boomHaltState ∧
    (run boomCtx 0 5 =
      some { results := boomHaltState.results, completed := false,
             iterationCount := boomHaltState.iterationCount,
             gcLog := boomHaltState.gcLog } ∧
     ∃ u, Reach boomCtx u ∧ step boomCtx u = some (.halt boomHaltMsg boomHaltState)) :=
  ⟨rfl, C1_run_error_resolves boomCtx 0 5 boomHaltMsg boomHaltState rfl⟩

theorem mem_initState_samples {V R : Type} (ctx : RunCtx V R) {r : TestResult}
    (hr : r ∈ (initState ctx).results) : r.samples = [] := by
  unfold initState at hr
  simp only at hr
  rcases List.mem_map.mp hr with ⟨t, -, rfl⟩
  rfl

/-- Claim C7: a validator return of exactly `true` passes; `false` and the
empty string map to the default message "Validation failed", a non-empty
string becomes the failure message itself; and a validator that always
returns "boom" aborts the run at the first call — the run resolves, is not
completed, every TestResult has at most one sample and exactly one sample
exists in total. -/
theorem C7_validation_semantics {V R : Type} :
    (∀ v : ValidateReturn, validationMessage v = none ↔ v = .bool true) ∧
    (∀ s : String, s ≠ "" → validationMessage (.str s) = some s) ∧
    validationMessage (.str "") = some "Validation failed" ∧
    validationMessage (.bool false) = some "Validation failed" ∧
    (∀ (ctx : RunCtx V R) (f : R → V → ValidateReturn),
      ctx.validate = some f →
      (∀ res, f res ctx.value = .str "boom") →
      ctx.tests ≠ [] →
      (∀ t ∈ ctx.tests, ∀ n, ∃ r, t.2 n ctx.value = Except.ok r) →
      1 ≤ ctx.cycles →
      ∀ verbosity fuel : ℕ, ∃ out,
        run ctx verbosity fuel = some out ∧
        out.completed = false ∧
        (∀ r ∈ out.results, r.samples.length ≤ 1) ∧
        (out.results.map fun r => r.samples.length).sum = 1) := by
  refine ⟨?_, ?_, ?_, ?_, ?_⟩
  · intro v
    cases v with
    | bool b => cases b <;> simp [validationMessage]
    | str s => by_cases hs : s = "" <;> simp [validationMessage, hs]
  · intro s hs
    simp [validationMessage, hs]
  · simp [validationMessage]
  · simp [validationMessage]
  · intro ctx f hvf hboom htests hok hcyc verbosity fuel
    have hN : 0 < ctx.tests.length := List.length_pos.mpr htests
    have hlen0 : (initState ctx).results.length = ctx.tests.length :=
      initState_results_length ctx
    have hq0 : (startCycle ctx (initState ctx)).queue =
        (List.range ctx.tests.length).map (fun i => (⟨0, i⟩ : QEntry)) := by
      rw [startCycle_queue, hlen0]
    have hqlen : (startCycle ctx (initState ctx)).queue.length = ctx.tests.length := by
      rw [hq0]
      simp
    have hqne : (startCycle ctx (initState ctx)).queue ≠ [] := by
      intro h
      rw [h] at hqlen
      simp at hqlen
      omega
    have hi : stepIndex ctx (startCycle ctx (initState ctx)) < ctx.tests.length := by
      unfold stepIndex
      rw [hqlen]
      exact Nat.mod_lt _ hN
    have hentry : stepEntry ctx (startCycle ctx (initState ctx)) =
        ⟨0, stepIndex ctx (startCycle ctx (initState ctx))⟩ := by
      unfold stepEntry
      rw [hq0]
      exact getD_range_map _ _ _ _ hi
    have hidx : (stepEntry ctx (startCycle ctx (initState ctx))).idx <
        ctx.tests.length := by
      rw [hentry]
      exact hi
    have htest_mem :
        ctx.tests.getD (stepEntry ctx (startCycle ctx (initState ctx))).idx default ∈
          ctx.tests := getD_mem hidx default
    obtain ⟨res, hres⟩ :=
      hok _ htest_mem (startCycle ctx (initState ctx)).iterationCount
    have hstep : step ctx (startCycle ctx (initState ctx)) =
        some (.halt "boom" (iterState ctx (startCycle ctx (initState ctx)))) :=
      step_eq_halt_validation ctx hqne hres hvf
        (by rw [hboom res]; simp [validationMessage])
    obtain ⟨k, hk⟩ : ∃ k, ctx.cycles = k + 1 := ⟨ctx.cycles - 1, by omega⟩
    have hrc : runCycles ctx ctx.cycles fuel (initState ctx) =
        .halted "boom" (iterState ctx (startCycle ctx (initState ctx))) := by
      rw [hk]
      unfold runCycles
      rw [loop_of_step_halt ctx hstep fuel]
    have hrun : run ctx verbosity fuel =
        some { results := (iterState ctx (startCycle ctx (initState ctx))).results,
               completed := false,
               iterationCount :=
                 (iterState ctx (startCycle ctx (initState ctx))).iterationCount,
               gcLog := (iterState ctx (startCycle ctx (initState ctx))).gcLog } := by
      unfold run
      rw [hrc]
    have hres_list : (iterState ctx (startCycle ctx (initState ctx))).results =
        updateAt (initState ctx).results
          (stepEntry ctx (startCycle ctx (initState ctx))).idx
          (bumpResult (ctx.time (startCycle ctx (initState ctx)).iterationCount)) := by
      have h0 : (iterState ctx (startCycle ctx (initState ctx))).results =
          updateAt (startCycle ctx (initState ctx)).results
            (stepEntry ctx (startCycle ctx (initState ctx))).idx
            (bumpResult (ctx.time (startCycle ctx (initState ctx)).iterationCount)) := rfl
      rw [h0, startCycle_results]
    have hlt : (stepEntry ctx (startCycle ctx (initState ctx))).idx <
        (initState ctx).results.length := by
      rw [hlen0]
      exact hidx
    refine ⟨_, hrun, rfl, ?_, ?_⟩
    · intro r hr
      simp only at hr
      rw [hres_list] at hr
      rcases mem_updateAt default hr with hr | ⟨-, rfl⟩
      · rw [mem_initState_samples ctx hr]
        simp
      · unfold bumpResult
        simp only [List.length_append]
        rw [List.length_eq_zero.mpr
          (initState_results_getD_samples ctx _ hidx)]
        simp
    · simp only
      rw [hres_list,
        map_updateAt_set (fun r => r.samples.length) _ _ _ default hlt]
      have hb : (bumpResult (ctx.time (startCycle ctx (initState ctx)).iterationCount)
          ((initState ctx).results.getD
            (stepEntry ctx (startCycle ctx (initState ctx))).idx default)).samples.length
          = 1 := by
        unfold bumpResult
        simp only [List.length_append]
        rw [List.length_eq_zero.mpr (initState_results_getD_samples ctx _ hidx)]
        simp
      rw [hb, initState_results_map_len]
      have hlt2 : (stepEntry ctx (startCycle ctx (initState ctx))).idx <
          (List.replicate ctx.tests.length (0 : ℕ)).length := by
        simpa using hidx
      have hset := sum_set_add (List.replicate ctx.tests.length (0 : ℕ))
        (stepEntry ctx (startCycle ctx (initState ctx))).idx 1 hlt2 0
      have hzero : (List.replicate ctx.tests.length (0 : ℕ)).sum = 0 := by
        simp
      have hgd : (List.replicate ctx.tests.length (0 : ℕ)).getD
          (stepEntry ctx (startCycle ctx (initState ctx))).idx 0 = 0 := by
        rw [List.getD_eq_getElem _ _ hlt2]
        simp
      omega

/-- Witness for C7: the hypotheses and the abort behaviour evaluated on the
concrete always-"boom" context. -/
theorem C7_validation_semantics_witness :
    (boomCtx.validate = some boomValidator ∧
     (∀ res : Unit, boomValidator res boomCtx.value = .str "boom") ∧
     boomCtx.tests ≠ [] ∧
     (∀ t ∈ boomCtx.tests, ∀ n, ∃ r, t.2 n boomCtx.value = Except.ok r) ∧
     1 ≤ boomCtx.cycles) ∧
    (∃ out, run boomCtx 0 5 = some out ∧ out.completed = false ∧
      (∀ r ∈ out.results, r.samples.length ≤ 1) ∧
      (out.results.map fun r => r.samples.length).sum = 1) := by
  have htests : boomCtx.tests ≠ [] := by simp [boomCtx]
  have hok : ∀ t ∈ boomCtx.tests, ∀ n, ∃ r, t.2 n boomCtx.value = Except.ok r := by
    intro t ht n
    simp only [boomCtx, List.mem_singleton] at ht
    subst ht
    exact ⟨(), rfl⟩
  exact ⟨⟨rfl, fun _ => rfl, htests, hok, le_refl _⟩,
    C7_validation_semantics.2.2.2.2 boomCtx boomValidator rfl (fun _ => rfl)
      htests hok (le_refl _) 0 5⟩

theorem contState_gcLog {V R : Type} (ctx : RunCtx V R) (st : RunState) :
    (contState ctx st).gcLog =
      if ctx.hasGC ∧
          handleGarbageCollection ctx.gcStrategy (stepCompleted ctx st)
            (st.iterationCount + 1) ctx.gcInterval = true
      then st.gcLog ++ [st.iterationCount + 1] else st.gcLog := by
  by_cases hgc : ctx.hasGC ∧
      handleGarbageCollection ctx.gcStrategy (stepCompleted ctx st)
        (st.iterationCount + 1) ctx.gcInterval = true
  · unfold contState
    rw [if_pos hgc, if_pos hgc]
    rfl
  · unfold contState
    rw [if_neg hgc, if_neg hgc]
    rfl

theorem startCycle_gcLog_of_ne {V R : Type} (ctx : RunCtx V R) (st : RunState)
    (h : ¬(ctx.hasGC ∧ ctx.gcStrategy = .perCycle)) :
    (startCycle ctx st).gcLog = st.gcLog := by
  unfold startCycle
  rw [if_neg h]

theorem periodicLog_succ (g c : ℕ) :
    periodicLog g (c + 1) =
      periodicLog g c ++ if (c + 1) % g = 0 then [c + 1] else [] := by
  unfold periodicLog
  rw [List.range_succ]
  simp only [List.map_append, List.filter_append, List.map_cons, List.map_nil]
  by_cases hmod : (c + 1) % g = 0 <;> simp [hmod]

/-- Claim C8: under the `periodic` strategy with a GC hook present, along
any run that has not thrown, the log of forced collections is exactly the
multiples of `gcInterval` among the run-global completed-call counts
1..iterationCount — the counter is shared by all cycles and tests and never
reset, and a collection follows a completed call iff the count is a
multiple of `gcInterval`.  The same holds of the output of every completed
run. -/
theorem C8_periodic_gc {V R : Type} (ctx : RunCtx V R)
    (hstrat : ctx.gcStrategy = .periodic) (hgc : ctx.hasGC = true) :
    (∀ st, ReachC ctx st → st.gcLog = periodicLog ctx.gcInterval st.iterationCount) ∧
    (∀ verbosity fuel out, run ctx verbosity fuel = some out → out.completed = true →
      out.gcLog = periodicLog ctx.gcInterval out.iterationCount) := by
  have hstep : ∀ s t : RunState,
      s.gcLog = periodicLog ctx.gcInterval s.iterationCount →
      step ctx s = some (.cont t) →
      t.gcLog = periodicLog ctx.gcInterval t.iterationCount := by
    intro s t hJ hs
    obtain ⟨-, rfl⟩ := step_cont_state ctx s t hs
    rw [contState_gcLog, contState_iterationCount, periodicLog_succ, hJ]
    unfold handleGarbageCollection
    simp only [hstrat, hgc, true_and]
    by_cases hmod : (s.iterationCount + 1) % ctx.gcInterval = 0
    · rw [if_pos (by simp [hmod]), if_pos hmod]
    · rw [if_neg (by simp [hmod]), if_neg hmod]
      simp
  have hcycle : ∀ s : RunState,
      s.gcLog = periodicLog ctx.gcInterval s.iterationCount →
      (startCycle ctx s).gcLog =
        periodicLog ctx.gcInterval (startCycle ctx s).iterationCount := by
    intro s hJ
    rw [startCycle_gcLog_of_ne ctx s (by
        rintro ⟨-, hc⟩
        rw [hstrat] at hc
        cases hc),
      startCycle_iterationCount]
    exact hJ
  have hinit : (initState ctx).gcLog =
      periodicLog ctx.gcInterval (initState ctx).iterationCount := rfl
  constructor
  · intro st h
    induction h with
    | init => exact hinit
    | newCycle _ ih => exact hcycle _ ih
    | stepCont _ hs ih => exact hstep _ _ ih hs
  · intro verbosity fuel out hrun hcomp
    unfold run at hrun
    cases hrc : runCycles ctx ctx.cycles fuel (initState ctx) with
    | fuelOut =>
      rw [hrc] at hrun
      cases hrun
    | halted m s =>
      rw [hrc] at hrun
      injection hrun with hrun
      subst hrun
      cases hcomp
    | done s =>
      rw [hrc] at hrun
      injection hrun with hrun
      subst hrun
      simp only
      exact runCycles_done_inv ctx
        (fun s => s.gcLog = periodicLog ctx.gcInterval s.iterationCount)
        hstep hcycle ctx.cycles fuel (initState ctx) s hinit hrc

/-- Witness for C8: the GC log of the concrete two-cycle periodic run. -/
theorem C8_periodic_gc_witness :
    (witCtx.gcStrategy = .periodic ∧ witCtx.hasGC = true ∧
     run witCtx 0 5 = some witOut ∧ witOut.completed = true) ∧
    witOut.gcLog = periodicLog witCtx.gcInterval witOut.iterationCount :=
  ⟨⟨rfl, rfl, rfl, rfl⟩, (C8_periodic_gc witCtx rfl rfl).2 0 5 witOut rfl rfl⟩

theorem nodup_getD_inj {α : Type} {l : List α} (h : l.Nodup) {p q : ℕ}
    (hp : p < l.length) (hq : q < l.length) (d : α)
    (he : l.getD p d = l.getD q d) : p = q := by
  rw [List.getD_eq_getElem _ _ hp, List.getD_eq_getElem _ _ hq] at he
  exact (List.Nodup.getElem_inj_iff h).mp he

theorem iterState_results {V R : Type} (ctx : RunCtx V R) (st : RunState) :
    (iterState ctx st).results =
      updateAt st.results (stepEntry ctx st).idx
        (bumpResult (ctx.time st.iterationCount)) := rfl

theorem iterState_queue {V R : Type} (ctx : RunCtx V R) (st : RunState) :
    (iterState ctx st).queue =
      if stepCompleted ctx st then st.queue.eraseIdx (stepIndex ctx st)
      else updateAt st.queue (stepIndex ctx st)
        fun q => { q with runs := (stepEntry ctx st).runs + 1 } := rfl

theorem mem_updateAt_strong {α : Type} {a : α} {l : List α} {n : ℕ} {f : α → α} (d : α)
    (h : a ∈ updateAt l n f) :
    (n < l.length ∧ a = f (l.getD n d)) ∨
    (∃ p, p < l.length ∧ p ≠ n ∧ l.getD p d = a) := by
  induction l generalizing n with
  | nil => simp [updateAt] at h
  | cons b l ih =>
    cases n with
    | zero =>
      simp only [updateAt] at h
      rcases List.mem_cons.mp h with h | h
      · exact Or.inl ⟨by simp, by simpa using h⟩
      · obtain ⟨p, hp, ha⟩ := List.mem_iff_getElem.mp h
        refine Or.inr ⟨p + 1, by simpa using hp, by omega, ?_⟩
        rw [List.getD_cons_succ, List.getD_eq_getElem _ _ hp]
        exact ha
    | succ n =>
      simp only [updateAt] at h
      rcases List.mem_cons.mp h with h | h
      · exact Or.inr ⟨0, by simp, by omega, by simpa using h.symm⟩
      · rcases ih h with ⟨hlt, ha⟩ | ⟨p, hplt, hpne, ha⟩
        · exact Or.inl ⟨by simpa using hlt, by rwa [List.getD_cons_succ]⟩
        · exact Or.inr ⟨p + 1, by simpa using hplt, by omega, by rwa [List.getD_cons_succ]⟩

theorem queueInv_step {V R : Type} (ctx : RunCtx V R) {C : ℕ}
    (hiter : ctx.iterations = (C : ℚ)) {s0 : ℕ → ℕ} {st : RunState}
    (hinv : QueueInvariant ctx C s0 st) (hne : st.queue ≠ [])
    {t : RunState} (hs : step ctx st = some (.cont t)) :
    QueueInvariant ctx C s0 t ∧ cycleMeasure C t + 1 = cycleMeasure C st := by
  obtain ⟨-, rfl⟩ := step_cont_state ctx st t hs
  obtain ⟨hlen, hsub, hq, hout⟩ := hinv
  have hqlen : 0 < st.queue.length := List.length_pos.mpr hne
  have hilt : stepIndex ctx st < st.queue.length := Nat.mod_lt _ hqlen
  have hemem : stepEntry ctx st ∈ st.queue := getD_mem hilt default
  obtain ⟨heruns, hecount⟩ := hq _ hemem
  have hidxmem : (stepEntry ctx st).idx ∈ st.queue.map QEntry.idx :=
    List.mem_map_of_mem _ hemem
  have hidxlt : (stepEntry ctx st).idx < ctx.tests.length := by
    have := hsub.subset hidxmem
    simpa using this
  have hnodupmap : (st.queue.map QEntry.idx).Nodup := hsub.nodup (List.nodup_range _)
  have hnodup : st.queue.Nodup := List.Nodup.of_map _ hnodupmap
  have hidxlt2 : (stepEntry ctx st).idx < st.results.length := by
    rw [hlen]
    exact hidxlt
  have hgd_self : (iterState ctx st).results.getD (stepEntry ctx st).idx default =
      bumpResult (ctx.time st.iterationCount)
        (st.results.getD (stepEntry ctx st).idx default) := by
    rw [iterState_results]
    exact getD_updateAt_self _ _ _ _ hidxlt2
  have hgd_ne : ∀ j, j ≠ (stepEntry ctx st).idx →
      (iterState ctx st).results.getD j default = st.results.getD j default := by
    intro j hj
    rw [iterState_results]
    exact getD_updateAt_ne _ _ _ hj
  have hlen_bump : ∀ r : TestResult,
      (bumpResult (ctx.time st.iterationCount) r).samples.length =
        r.samples.length + 1 := by
    intro r
    simp [bumpResult]
  have hmapgd : (st.queue.map QEntry.idx).getD (stepIndex ctx st) 0 =
      (stepEntry ctx st).idx := by
    rw [List.getD_eq_getElem _ _ (by simpa using hilt), List.getElem_map]
    unfold stepEntry
    rw [List.getD_eq_getElem _ _ hilt]
  have hcmgd : (st.queue.map fun e => C - e.runs).getD (stepIndex ctx st) 0 =
      C - (stepEntry ctx st).runs := by
    rw [List.getD_eq_getElem _ _ (by simpa using hilt), List.getElem_map]
    unfold stepEntry
    rw [List.getD_eq_getElem _ _ hilt]
  by_cases hcomp : (stepEntry ctx st).runs + 1 = C
  · have hcompb : stepCompleted ctx st = true := by
      unfold stepCompleted
      simp [hiter, hcomp]
    have hqueue : (iterState ctx st).queue = st.queue.eraseIdx (stepIndex ctx st) := by
      rw [iterState_queue, hcompb]
      simp
    have hmap : (iterState ctx st).queue.map QEntry.idx =
        (st.queue.map QEntry.idx).eraseIdx (stepIndex ctx st) := by
      rw [hqueue, map_eraseIdx]
    refine ⟨⟨?_, ?_, ?_, ?_⟩, ?_⟩
    · rw [contState_results, iterState_results, length_updateAt, hlen]
    · rw [contState_queue, hmap]
      exact (List.eraseIdx_sublist _ _).trans hsub
    · intro e2 he2
      rw [contState_queue, hqueue] at he2
      have he2q : e2 ∈ st.queue := (List.eraseIdx_sublist _ _).subset he2
      have hne2 : e2 ≠ stepEntry ctx st := mem_eraseIdx_ne hnodup hilt he2 default
      have hidne : e2.idx ≠ (stepEntry ctx st).idx := by
        intro hcontra
        exact hne2 (List.inj_on_of_nodup_map hnodupmap he2q hemem hcontra)
      obtain ⟨h1, h2⟩ := hq e2 he2q
      refine ⟨h1, ?_⟩
      rw [contState_results, hgd_ne _ hidne]
      exact h2
    · intro j hj hjnot
      rw [contState_queue, hmap] at hjnot
      by_cases hje : j = (stepEntry ctx st).idx
      · subst hje
        rw [contState_results, hgd_self, hlen_bump, hecount]
        omega
      · have hjnot2 : j ∉ st.queue.map QEntry.idx := by
          intro hjin
          exact hjnot (mem_eraseIdx_of_ne 0 hjin (by simpa using hilt)
            (by rw [hmapgd]; exact hje))
        rw [contState_results, hgd_ne _ hje]
        exact hout j hj hjnot2
    · unfold cycleMeasure
      rw [contState_queue, hqueue, map_eraseIdx]
      have hsum := sum_eraseIdx_add (st.queue.map fun e => C - e.runs)
        (stepIndex ctx st) (by simpa using hilt) 0
      rw [hcmgd] at hsum
      omega
  · have hcompb : stepCompleted ctx st = false := by
      unfold stepCompleted
      simp only [hiter, decide_eq_false_iff_not, Nat.cast_inj]
      exact hcomp
    have hqueue : (iterState ctx st).queue =
        updateAt st.queue (stepIndex ctx st)
          (fun q => { q with runs := (stepEntry ctx st).runs + 1 }) := by
      rw [iterState_queue, hcompb]
      simp
    have hmapidx : (iterState ctx st).queue.map QEntry.idx =
        st.queue.map QEntry.idx := by
      rw [hqueue]
      exact map_updateAt_of QEntry.idx
        (fun q => { q with runs := (stepEntry ctx st).runs + 1 }) (fun a => rfl) _ _
    refine ⟨⟨?_, ?_, ?_, ?_⟩, ?_⟩
    · rw [contState_results, iterState_results, length_updateAt, hlen]
    · rw [contState_queue, hmapidx]
      exact hsub
    · intro e2 he2
      rw [contState_queue, hqueue] at he2
      rcases mem_updateAt_strong default he2 with ⟨-, rfl⟩ | ⟨p, hplt, hpne, rfl⟩
      · have hse : st.queue.getD (stepIndex ctx st) default = stepEntry ctx st := rfl
        constructor
        · show (stepEntry ctx st).runs + 1 < C
          omega
        · rw [contState_results]
          show ((iterState ctx st).results.getD
            (st.queue.getD (stepIndex ctx st) default).idx default).samples.length = _
          rw [hse, hgd_self, hlen_bump, hecount]
          dsimp only
          omega
      · have hpq : st.queue.getD p default ∈ st.queue := getD_mem hplt default
        have hidne : (st.queue.getD p default).idx ≠ (stepEntry ctx st).idx := by
          intro hcontra
          apply hpne
          have hgp : (st.queue.map QEntry.idx).getD p 0 =
              (st.queue.getD p default).idx := by
            rw [List.getD_eq_getElem _ _ (by simpa using hplt), List.getElem_map,
              List.getD_eq_getElem _ _ hplt]
          exact nodup_getD_inj hnodupmap (by simpa using hplt) (by simpa using hilt)
            0 (by rw [hgp, hmapgd, hcontra])
        obtain ⟨h1, h2⟩ := hq _ hpq
        refine ⟨h1, ?_⟩
        rw [contState_results, hgd_ne _ hidne]
        exact h2
    · intro j hj hjnot
      rw [contState_queue, hmapidx] at hjnot
      have hje : j ≠ (stepEntry ctx st).idx := by
        intro hcontra
        exact hjnot (hcontra ▸ hidxmem)
      rw [contState_results, hgd_ne _ hje]
      exact hout j hj hjnot
    · unfold cycleMeasure
      rw [contState_queue, hqueue,
        map_updateAt_set (fun e => C - e.runs) st.queue (stepIndex ctx st)
          (fun q => { q with runs := (stepEntry ctx st).runs + 1 }) default hilt]
      dsimp only
      have hsum := sum_set_add (st.queue.map fun e => C - e.runs) (stepIndex ctx st)
        (C - ((stepEntry ctx st).runs + 1)) (by simpa using hilt) 0
      rw [hcmgd] at hsum
      omega

theorem loop_completes {V R : Type} (ctx : RunCtx V R) {C : ℕ}
    (hiter : ctx.iterations = (C : ℚ)) (hnf : NeverFails ctx) :
    ∀ (fuel : ℕ) (st : RunState) (s0 : ℕ → ℕ),
      QueueInvariant ctx C s0 st → cycleMeasure C st ≤ fuel →
      ∃ t, loop ctx fuel st = .done t ∧ QueueInvariant ctx C s0 t ∧ t.queue = [] := by
  intro fuel
  induction fuel with
  | zero =>
    intro st s0 hinv hm
    have hqnil : st.queue = [] := by
      by_contra hne
      rcases List.exists_cons_of_ne_nil hne with ⟨e, es, hql⟩
      have he : e ∈ st.queue := by
        rw [hql]
        exact List.mem_cons_self _ _
      have hlt := (hinv.2.2.1 e he).1
      have hm1 : 1 ≤ cycleMeasure C st := by
        unfold cycleMeasure
        rw [hql]
        simp only [List.map_cons, List.sum_cons]
        omega
      omega
    refine ⟨st, ?_, hinv, hqnil⟩
    unfold loop
    simp only [step_empty ctx st hqnil]
  | succ fuel ih =>
    intro st s0 hinv hm
    by_cases hqnil : st.queue = []
    · refine ⟨st, ?_, hinv, hqnil⟩
      unfold loop
      simp only [step_empty ctx st hqnil]
    · have hqlen : 0 < st.queue.length := List.length_pos.mpr hqnil
      have hilt : stepIndex ctx st < st.queue.length := Nat.mod_lt _ hqlen
      have hemem : stepEntry ctx st ∈ st.queue := getD_mem hilt default
      have hidxlt : (stepEntry ctx st).idx < ctx.tests.length := by
        have := hinv.2.1.subset (List.mem_map_of_mem _ hemem)
        simpa using this
      obtain ⟨res, hres⟩ := hnf.1 _ (getD_mem hidxlt default) st.iterationCount
      have hv : (match ctx.validate with
                 | some f => validationMessage (f res ctx.value)
                 | none => none : Option String) = none := by
        cases hval : ctx.validate with
        | none => rfl
        | some f => exact hnf.2 f hval res
      have hstep := step_eq_cont_of ctx hqnil hres hv
      obtain ⟨hinv2, hm2⟩ := queueInv_step ctx hiter hinv hqnil hstep
      obtain ⟨t, ht, hi2, hq2⟩ := ih (contState ctx st) s0 hinv2 (by omega)
      refine ⟨t, ?_, hi2, hq2⟩
      unfold loop
      simp only [hstep]
      exact ht

theorem calculateStatistics_length (l : List TestResult) :
    (calculateStatistics l).length = l.length := by
  induction l with
  | nil => rfl
  | cons r rest ih =>
    unfold calculateStatistics
    by_cases h0 : r.samples.length = 0
    · rw [if_pos h0]
    · rw [if_neg h0]
      simp [ih]

theorem queueInv_startCycle {V R : Type} (ctx : RunCtx V R) {C : ℕ} (hC : 1 ≤ C)
    {st : RunState} (s0 : ℕ → ℕ)
    (hlen : st.results.length = ctx.tests.length)
    (hcounts : ∀ j < ctx.tests.length,
      (st.results.getD j default).samples.length = s0 j) :
    QueueInvariant ctx C s0 (startCycle ctx st) ∧
      cycleMeasure C (startCycle ctx st) = ctx.tests.length * C := by
  have hq : (startCycle ctx st).queue =
      (List.range ctx.tests.length).map fun i => ⟨0, i⟩ := by
    rw [startCycle_queue, hlen]
  have hmapidx : (startCycle ctx st).queue.map QEntry.idx =
      List.range ctx.tests.length := by
    rw [hq, List.map_map]
    have hcomp : (QEntry.idx ∘ fun i => (⟨0, i⟩ : QEntry)) = fun i => i := rfl
    rw [hcomp]
    simp
  refine ⟨⟨?_, ?_, ?_, ?_⟩, ?_⟩
  · rw [startCycle_results]
    exact hlen
  · rw [hmapidx]
  · intro e he
    rw [hq] at he
    rcases List.mem_map.mp he with ⟨i, hi, rfl⟩
    refine ⟨hC, ?_⟩
    rw [startCycle_results]
    dsimp only
    rw [hcounts i (List.mem_range.mp hi)]
    omega
  · intro j hj hjn
    rw [hmapidx] at hjn
    exact absurd (List.mem_range.mpr hj) hjn
  · unfold cycleMeasure
    rw [hq, List.map_map]
    have hcomp : ((fun e => C - e.runs) ∘ fun i => (⟨0, i⟩ : QEntry)) =
        fun _ => C := by
      funext i
      simp
    rw [hcomp]
    simp [List.sum_replicate, mul_comm]

theorem runCycles_completes {V R : Type} (ctx : RunCtx V R) {C : ℕ} (hC : 1 ≤ C)
    (hiter : ctx.iterations = (C : ℚ)) (hnf : NeverFails ctx) :
    ∀ (k fuel : ℕ) (st : RunState) (s0 : ℕ → ℕ),
      st.results.length = ctx.tests.length →
      (∀ j < ctx.tests.length, (st.results.getD j default).samples.length = s0 j) →
      ctx.tests.length * C ≤ fuel →
      ∃ t, runCycles ctx k fuel st = .done t ∧
        t.results.length = ctx.tests.length ∧
        ∀ j < ctx.tests.length,
          (t.results.getD j default).samples.length = s0 j + k * C := by
  intro k
  induction k with
  | zero =>
    intro fuel st s0 hlen hcounts hfuel
    refine ⟨st, rfl, hlen, ?_⟩
    intro j hj
    rw [hcounts j hj]
    omega
  | succ k ih =>
    intro fuel st s0 hlen hcounts hfuel
    obtain ⟨hinv, hmeas⟩ := queueInv_startCycle ctx hC s0 hlen hcounts
    obtain ⟨t1, hloop, hinv1, hq1⟩ :=
      loop_completes ctx hiter hnf fuel (startCycle ctx st) s0 hinv (by omega)
    have hlen1 : t1.results.length = ctx.tests.length := hinv1.1
    have hcount1 : ∀ j < ctx.tests.length,
        (t1.results.getD j default).samples.length = s0 j + C := by
      intro j hj
      exact hinv1.2.2.2 j hj (by rw [hq1]; simp)
    obtain ⟨t, hrc, hlen2, hcount2⟩ := ih fuel t1 (fun j => s0 j + C) hlen1 hcount1 hfuel
    refine ⟨t, ?_, hlen2, ?_⟩
    · unfold runCycles
      simp only [hloop]
      exact hrc
    · intro j hj
      rw [hcount2 j hj, Nat.succ_mul]
      ring

/-- Claim C5: for any registered test count, integer call count `C ≥ 1` and
cycle count `K ≥ 1`, a run whose callables never throw and whose validator
never fails resolves successfully (given enough loop fuel) with every
TestResult holding exactly `C * K` samples — each cycle contributes `C`
samples per test into the same per-run TestResult. -/
theorem C5_samples_per_test {V R : Type} (ctx : RunCtx V R) {C : ℕ} (hC : 1 ≤ C)
    (hiter : ctx.iterations = (C : ℚ)) (_hK : 1 ≤ ctx.cycles) (hnf : NeverFails ctx)
    (verbosity fuel : ℕ) (hfuel : ctx.tests.length * C ≤ fuel) :
    ∃ out, run ctx verbosity fuel = some out ∧ out.completed = true ∧
      out.results.length = ctx.tests.length ∧
      ∀ r ∈ out.results, r.samples.length = C * ctx.cycles := by
  obtain ⟨t, hrc, hlen, hcounts⟩ := runCycles_completes ctx hC hiter hnf ctx.cycles fuel
    (initState ctx) (fun _ => 0) (initState_results_length ctx)
    (fun j hj => by rw [initState_results_getD_samples ctx j hj]; rfl) hfuel
  have hrun : run ctx verbosity fuel =
      some { results := if verbosity > 0 then printResultsSort (calculateStatistics t.results)
                        else calculateStatistics t.results,
             completed := true, iterationCount := t.iterationCount, gcLog := t.gcLog } := by
    unfold run
    rw [hrc]
  refine ⟨_, hrun, rfl, ?_, ?_⟩
  · simp only
    by_cases hv : verbosity > 0
    · rw [if_pos hv, printResultsSort_length, calculateStatistics_length, hlen]
    · rw [if_neg hv, calculateStatistics_length, hlen]
  · intro r hr
    simp only at hr
    have hr2 : r ∈ calculateStatistics t.results := by
      by_cases hv : verbosity > 0
      · rw [if_pos hv] at hr
        exact mem_printResultsSort.mp hr
      · rwa [if_neg hv] at hr
    obtain ⟨r3, hr3, hsamp, -⟩ := mem_calculateStatistics hr2
    rw [hsamp]
    obtain ⟨j, hj, hgd⟩ := List.mem_iff_getElem.mp hr3
    have hj2 : j < ctx.tests.length := by
      rw [← hlen]
      exact hj
    have hval : t.results.getD j default = r3 := by
      rw [List.getD_eq_getElem _ _ hj]
      exact hgd
    have hcount := hcounts j hj2
    rw [hval] at hcount
    rw [hcount]
    ring

/-- Witness for C5: the concrete two-cycle, two-call run yields four
samples for its single test. -/
theorem C5_samples_per_test_witness :
    ((1 : ℕ) ≤ 2 ∧ witCtx.iterations = ((2 : ℕ) : ℚ) ∧ 1 ≤ witCtx.cycles ∧
     NeverFails witCtx ∧ witCtx.tests.length * 2 ≤ 5) ∧
    (∃ out, run witCtx 0 5 = some out ∧ out.completed = true ∧
      out.results.length = witCtx.tests.length ∧
      ∀ r ∈ out.results, r.samples.length = 2 * witCtx.cycles) := by
  have hnf : NeverFails witCtx := by
    constructor
    · intro t ht n
      simp only [witCtx, List.mem_singleton] at ht
      subst ht
      exact ⟨(), rfl⟩
    · intro f hf
      simp [witCtx] at hf
  have hiter : witCtx.iterations = ((2 : ℕ) : ℚ) := by norm_num [witCtx]
  have hfuel : witCtx.tests.length * 2 ≤ 5 := by simp [witCtx]
  exact ⟨⟨by norm_num, hiter, by norm_num [witCtx], hnf, hfuel⟩,
    C5_samples_per_test witCtx (by norm_num) hiter (by norm_num [witCtx]) hnf 0 5 hfuel⟩

theorem stepCompleted_false_of_noninteger {V R : Type} (ctx : RunCtx V R)
    (hC : ¬∃ C : ℕ, 1 ≤ C ∧ ctx.iterations = (C : ℚ)) (st : RunState) :
    stepCompleted ctx st = false := by
  unfold stepCompleted
  simp only [decide_eq_false_iff_not]
  intro hcontra
  exact hC ⟨(stepEntry ctx st).runs + 1, by omega, hcontra.symm⟩

theorem loop_never_done {V R : Type} (ctx : RunCtx V R)
    (hC : ¬∃ C : ℕ, 1 ≤ C ∧ ctx.iterations = (C : ℚ)) (hnf : NeverFails ctx) :
    ∀ (fuel : ℕ) (st : RunState), st.queue ≠ [] →
      (∀ e ∈ st.queue, e.idx < ctx.tests.length) →
      loop ctx fuel st = .fuelOut := by
  intro fuel
  induction fuel with
  | zero =>
    intro st hq hidx
    have hqlen : 0 < st.queue.length := List.length_pos.mpr hq
    have hilt : stepIndex ctx st < st.queue.length := Nat.mod_lt _ hqlen
    have hemem : stepEntry ctx st ∈ st.queue := getD_mem hilt default
    obtain ⟨res, hres⟩ := hnf.1 _ (getD_mem (hidx _ hemem) default) st.iterationCount
    have hv : (match ctx.validate with
               | some f => validationMessage (f res ctx.value)
               | none => none : Option String) = none := by
      cases hval : ctx.validate with
      | none => rfl
      | some f => exact hnf.2 f hval res
    have hstep := step_eq_cont_of ctx hq hres hv
    unfold loop
    simp only [hstep]
  | succ fuel ih =>
    intro st hq hidx
    have hqlen : 0 < st.queue.length := List.length_pos.mpr hq
    have hilt : stepIndex ctx st < st.queue.length := Nat.mod_lt _ hqlen
    have hemem : stepEntry ctx st ∈ st.queue := getD_mem hilt default
    obtain ⟨res, hres⟩ := hnf.1 _ (getD_mem (hidx _ hemem) default) st.iterationCount
    have hv : (match ctx.validate with
               | some f => validationMessage (f res ctx.value)
               | none => none : Option String) = none := by
      cases hval : ctx.validate with
      | none => rfl
      | some f => exact hnf.2 f hval res
    have hstep := step_eq_cont_of ctx hq hres hv
    have hq2 : (contState ctx st).queue =
        updateAt st.queue (stepIndex ctx st)
          (fun q => { q with runs := (stepEntry ctx st).runs + 1 }) := by
      rw [contState_queue, iterState_queue, stepCompleted_false_of_noninteger ctx hC st]
      simp
    have hqne2 : (contState ctx st).queue ≠ [] := by
      intro hnil
      have hlen0 := congrArg List.length hnil
      rw [hq2, length_updateAt] at hlen0
      simp only [List.length_nil] at hlen0
      omega
    have hidx2 : ∀ e ∈ (contState ctx st).queue, e.idx < ctx.tests.length := by
      intro e he
      rw [hq2] at he
      rcases mem_updateAt default he with he | ⟨-, rfl⟩
      · exact hidx e he
      · dsimp only
        exact hidx _ hemem
    unfold loop
    simp only [hstep]
    exact ih (contState ctx st) hqne2 hidx2

/-- Claim C9: with at least one registered test (and callables and
validator that never fail on their own), the run loop terminates for some
fuel budget if and only if the configured call count is a positive integer
— a queue entry is removed only when its incremented runs counter is
exactly equal to the call count, so a zero, negative or fractional call
count leaves the queue forever non-empty. -/
theorem C9_termination_iff {V R : Type} (ctx : RunCtx V R)
    (htests : ctx.tests ≠ []) (hnf : NeverFails ctx) (hcyc : 1 ≤ ctx.cycles)
    (verbosity : ℕ) :
    (∃ fuel out, run ctx verbosity fuel = some out) ↔
    (∃ C : ℕ, 1 ≤ C ∧ ctx.iterations = (C : ℚ)) := by
  constructor
  · rintro ⟨fuel, out, hrun⟩
    by_contra hC
    obtain ⟨k, hk⟩ : ∃ k, ctx.cycles = k + 1 := ⟨ctx.cycles - 1, by omega⟩
    have hN : 0 < ctx.tests.length := List.length_pos.mpr htests
    have hq0 : (startCycle ctx (initState ctx)).queue =
        (List.range ctx.tests.length).map (fun i => (⟨0, i⟩ : QEntry)) := by
      rw [startCycle_queue, initState_results_length]
    have hqne : (startCycle ctx (initState ctx)).queue ≠ [] := by
      intro h
      have hlen0 := congrArg List.length h
      rw [hq0] at hlen0
      simp only [List.length_map, List.length_range, List.length_nil] at hlen0
      omega
    have hidx0 : ∀ e ∈ (startCycle ctx (initState ctx)).queue,
        e.idx < ctx.tests.length := by
      intro e he
      rw [hq0] at he
      rcases List.mem_map.mp he with ⟨i, hi, rfl⟩
      simpa using List.mem_range.mp hi
    have hloop := loop_never_done ctx hC hnf fuel _ hqne hidx0
    have hrc : runCycles ctx ctx.cycles fuel (initState ctx) = .fuelOut := by
      rw [hk]
      unfold runCycles
      simp only [hloop]
    unfold run at hrun
    rw [hrc] at hrun
    cases hrun
  · rintro ⟨C, hC, hiter⟩
    obtain ⟨t, hrc, -, -⟩ := runCycles_completes ctx hC hiter hnf ctx.cycles
      (ctx.tests.length * C) (initState ctx) (fun _ => 0) (initState_results_length ctx)
      (fun j hj => by rw [initState_results_getD_samples ctx j hj]; rfl) (le_refl _)
    refine ⟨ctx.tests.length * C,
      { results := if verbosity > 0 then printResultsSort (calculateStatistics t.results)
                   else calculateStatistics t.results,
        completed := true, iterationCount := t.iterationCount, gcLog := t.gcLog }, ?_⟩
    unfold run
    rw [hrc]

/-- Witness for C9: the termination equivalence applied at the concrete
context with call count 2. -/
theorem C9_termination_iff_witness :
    (witCtx.tests ≠ [] ∧ NeverFails witCtx ∧ 1 ≤ witCtx.cycles) ∧
    ((∃ fuel out, run witCtx 0 fuel = some out) ↔
      (∃ C : ℕ, 1 ≤ C ∧ witCtx.iterations = (C : ℚ))) := by
  have htests : witCtx.tests ≠ [] := by simp [witCtx]
  have hnf : NeverFails witCtx := by
    constructor
    · intro t ht n
      simp only [witCtx, List.mem_singleton] at ht
      subst ht
      exact ⟨(), rfl⟩
    · intro f hf
      simp [witCtx] at hf
  exact ⟨⟨htests, hnf, by norm_num [witCtx]⟩,
    C9_termination_iff witCtx htests hnf (by norm_num [witCtx]) 0⟩

theorem startCycle_queue_map_idx {V R : Type} (ctx : RunCtx V R) (st : RunState)
    (hlen : st.results.length = ctx.tests.length) :
    (startCycle ctx st).queue.map QEntry.idx = List.range ctx.tests.length := by
  rw [startCycle_queue, hlen, List.map_map]
  have hcomp : (QEntry.idx ∘ fun i => (⟨0, i⟩ : QEntry)) = fun i => i := rfl
  rw [hcomp]
  simp

theorem step_results_length {V R : Type} (ctx : RunCtx V R) {s t : RunState}
    (hs : step ctx s = some (.cont t)) : t.results.length = s.results.length := by
  obtain ⟨-, rfl⟩ := step_cont_state ctx s t hs
  rw [contState_results, iterState_results, length_updateAt]

theorem posInv_step {V R : Type} (ctx : RunCtx V R) {s t : RunState}
    (h : PosInv ctx s) (hs : step ctx s = some (.cont t)) : PosInv ctx t := by
  obtain ⟨hqne, rfl⟩ := step_cont_state ctx s t hs
  obtain ⟨hlen, hpos⟩ := h
  have hqlen : 0 < s.queue.length := List.length_pos.mpr hqne
  have hilt : stepIndex ctx s < s.queue.length := Nat.mod_lt _ hqlen
  have hmapgd : (s.queue.map QEntry.idx).getD (stepIndex ctx s) 0 =
      (stepEntry ctx s).idx := by
    rw [List.getD_eq_getElem _ _ (by simpa using hilt), List.getElem_map]
    unfold stepEntry
    rw [List.getD_eq_getElem _ _ hilt]
  constructor
  · rw [contState_results, iterState_results, length_updateAt]
    exact hlen
  · intro j hj
    by_cases hje : j = (stepEntry ctx s).idx
    · right
      subst hje
      rw [contState_results, iterState_results,
        getD_updateAt_self _ _ _ _ (by rw [hlen]; exact hj)]
      simp [bumpResult]
    · rcases hpos j hj with hin | hcount
      · left
        rw [contState_queue, iterState_queue]
        by_cases hcompl : stepCompleted ctx s
        · rw [if_pos hcompl, map_eraseIdx]
          exact mem_eraseIdx_of_ne 0 hin (by simpa using hilt) (by rw [hmapgd]; exact hje)
        · rw [if_neg hcompl,
            map_updateAt_of QEntry.idx
              (fun q => { q with runs := (stepEntry ctx s).runs + 1 }) (fun a => rfl) _ _]
          exact hin
      · right
        rw [contState_results, iterState_results, getD_updateAt_ne _ _ _ hje]
        exact hcount

theorem runCycles_done_pos {V R : Type} (ctx : RunCtx V R) :
    ∀ (k fuel : ℕ) (st t : RunState),
      st.results.length = ctx.tests.length →
      runCycles ctx (k + 1) fuel st = .done t →
      t.results.length = ctx.tests.length ∧
      ∀ j < ctx.tests.length, 1 ≤ (t.results.getD j default).samples.length := by
  intro k
  induction k with
  | zero =>
    intro fuel st t hlen h
    unfold runCycles at h
    cases hl : loop ctx fuel (startCycle ctx st) with
    | done s =>
      simp only [hl] at h
      unfold runCycles at h
      cases h
      have hcpos : PosInv ctx (startCycle ctx st) := by
        refine ⟨by rw [startCycle_results]; exact hlen, ?_⟩
        intro j hj
        left
        rw [startCycle_queue_map_idx ctx st hlen]
        exact List.mem_range.mpr hj
      have hposT : PosInv ctx t :=
        loop_done_inv ctx (PosInv ctx) (fun a b hI hst => posInv_step ctx hI hst)
          fuel _ t hcpos hl
      have hqnil := loop_done_queue_nil ctx fuel _ t hl
      refine ⟨hposT.1, ?_⟩
      intro j hj
      rcases hposT.2 j hj with hin | hcount
      · rw [hqnil] at hin
        simp at hin
      · exact hcount
    | halted m s =>
      simp only [hl] at h
      cases h
    | fuelOut =>
      simp only [hl] at h
      cases h
  | succ k ih =>
    intro fuel st t hlen h
    unfold runCycles at h
    cases hl : loop ctx fuel (startCycle ctx st) with
    | done s =>
      simp only [hl] at h
      have hslen : s.results.length = ctx.tests.length := by
        have := loop_done_inv ctx (fun u => u.results.length = ctx.tests.length)
          (fun a b hI hst => by
            show b.results.length = ctx.tests.length
            rw [step_results_length ctx hst]
            exact hI)
          fuel _ s (by
            show (startCycle ctx st).results.length = ctx.tests.length
            rw [startCycle_results]
            exact hlen) hl
        exact this
      exact ih fuel s t hslen h
    | halted m s =>
      simp only [hl] at h
      cases h
    | fuelOut =>
      simp only [hl] at h
      cases h

theorem calculateStatistics_eq_map {l : List TestResult}
    (h : ∀ r ∈ l, r.samples.length ≠ 0) :
    calculateStatistics l = l.map calcResultStatistics := by
  induction l with
  | nil => rfl
  | cons r rest ih =>
    unfold calculateStatistics
    rw [if_neg (h r (List.mem_cons_self _ _)),
      ih (fun r2 hr2 => h r2 (List.mem_cons_of_mem _ hr2))]
    rfl

theorem calcResultStatistics_meanTime (r : TestResult) :
    (calcResultStatistics r).meanTime =
      some (r.totalTime / (r.samples.length : ℚ)) := by
  unfold calcResultStatistics
  dsimp only
  split <;> rfl

theorem calcResultStatistics_ops (r : TestResult) :
    (calcResultStatistics r).opsPerSecond =
      some (1000 / (r.totalTime / (r.samples.length : ℚ))) := by
  unfold calcResultStatistics
  dsimp only
  split <;> rfl

/-- Counterexample to C2 as stated: on the concrete aborted run the single
TestResult has one sample, yet `meanTime` is absent — the catch block
returns before `#calculateStatistics` runs. -/
theorem C2_aborted_run_no_stats_counterexample :
    run boomCtx 0 5 = some boomOut ∧
    boomOut.results.map (fun r => r.samples.length) = [1] ∧
    boomOut.results.map (fun r => r.meanTime) = [none] :=
  ⟨rfl, rfl, rfl⟩

/-- Claim C2 (amended): after a resolution of `run` in which all cycles
completed (not after an aborted run, where the statistics pass is skipped
entirely), every TestResult with at least one sample has
`meanTime = totalTime / samples.length` and
`opsPerSecond = 1000 / meanTime`. -/
theorem C2_stats_after_completed_run {V R : Type} (ctx : RunCtx V R)
    (verbosity fuel : ℕ) (out : RunOutput)
    (hrun : run ctx verbosity fuel = some out) (hcomp : out.completed = true) :
    ∀ r ∈ out.results, 1 ≤ r.samples.length →
      r.meanTime = some (r.totalTime / (r.samples.length : ℚ)) ∧
      r.opsPerSecond = some (1000 / (r.totalTime / (r.samples.length : ℚ))) := by
  intro r hr hrpos
  unfold run at hrun
  cases hrc : runCycles ctx ctx.cycles fuel (initState ctx) with
  | fuelOut =>
    rw [hrc] at hrun
    cases hrun
  | halted m s =>
    rw [hrc] at hrun
    injection hrun with hrun
    subst hrun
    cases hcomp
  | done s =>
    rw [hrc] at hrun
    injection hrun with hrun
    subst hrun
    simp only at hr
    have hr2 : r ∈ calculateStatistics s.results := by
      by_cases hv : verbosity > 0
      · rw [if_pos hv] at hr
        exact mem_printResultsSort.mp hr
      · rwa [if_neg hv] at hr
    cases hcycles : ctx.cycles with
    | zero =>
      rw [hcycles] at hrc
      unfold runCycles at hrc
      cases hrc
      obtain ⟨r3, hr3, hsamp, -⟩ := mem_calculateStatistics hr2
      rw [mem_initState_samples ctx hr3] at hsamp
      rw [hsamp] at hrpos
      simp at hrpos
    | succ k =>
      rw [hcycles] at hrc
      obtain ⟨hslen, hspos⟩ :=
        runCycles_done_pos ctx k fuel (initState ctx) s
          (initState_results_length ctx) hrc
      have hall : ∀ r2 ∈ s.results, r2.samples.length ≠ 0 := by
        intro r2 hr2m
        obtain ⟨j, hj, hgd⟩ := List.mem_iff_getElem.mp hr2m
        have hj2 : j < ctx.tests.length := by
          rw [← hslen]
          exact hj
        have := hspos j hj2
        rw [List.getD_eq_getElem _ _ hj, hgd] at this
        omega
      rw [calculateStatistics_eq_map hall] at hr2
      obtain ⟨r3, -, rfl⟩ := List.mem_map.mp hr2
      rw [calcResultStatistics_meanTime, calcResultStatistics_ops,
        calcResultStatistics_totalTime, calcResultStatistics_samples]
      exact ⟨rfl, rfl⟩

/-- Witness for C2 (amended): evaluated on the concrete completed run. -/
theorem C2_stats_after_completed_run_witness :
    (run witCtx 0 5 = some witOut ∧ witOut.completed = true) ∧
    (∀ r ∈ witOut.results, 1 ≤ r.samples.length →
      r.meanTime = some (r.totalTime / (r.samples.length : ℚ)) ∧
      r.opsPerSecond = some (1000 / (r.totalTime / (r.samples.length : ℚ)))) :=
  ⟨⟨rfl, rfl⟩, C2_stats_after_completed_run witCtx 0 5 witOut rfl rfl⟩

theorem noDispersion_step {V R : Type} (ctx : RunCtx V R) {s t : RunState}
    (h : NoDispersion s) (hs : step ctx s = some (.cont t)) : NoDispersion t := by
  obtain ⟨-, rfl⟩ := step_cont_state ctx s t hs
  intro r hr
  rw [contState_results, iterState_results] at hr
  rcases mem_updateAt default hr with hr | ⟨hlt, rfl⟩
  · exact h r hr
  · have := h _ (getD_mem hlt default)
    simpa [bumpResult] using this

theorem noDispersion_startCycle {V R : Type} (ctx : RunCtx V R) {s : RunState}
    (h : NoDispersion s) : NoDispersion (startCycle ctx s) := by
  intro r hr
  rw [startCycle_results] at hr
  exact h r hr

theorem noDispersion_init {V R : Type} (ctx : RunCtx V R) :
    NoDispersion (initState ctx) := by
  intro r hr
  unfold initState at hr
  simp only at hr
  rcases List.mem_map.mp hr with ⟨t, -, rfl⟩
  exact ⟨rfl, rfl⟩

theorem calcResultStatistics_std_of_gt (r : TestResult) (h : 1 < r.samples.length) :
    (calcResultStatistics r).stdDeviation =
      some (Real.sqrt
        ((((r.samples.foldl
            (fun acc time =>
              acc + (time - r.totalTime / (r.samples.length : ℚ)) *
                (time - r.totalTime / (r.samples.length : ℚ))) 0) /
          ((r.samples.length - 1 : ℕ) : ℚ)) : ℚ) : ℝ)) := by
  unfold calcResultStatistics
  dsimp only
  rw [if_neg (by omega)]

theorem calcResultStatistics_margin_of_gt (r : TestResult) (h : 1 < r.samples.length) :
    (calcResultStatistics r).marginOfError =
      some (((getTCritical95 (r.samples.length - 1) : ℚ) : ℝ) *
        (Real.sqrt
          ((((r.samples.foldl
              (fun acc time =>
                acc + (time - r.totalTime / (r.samples.length : ℚ)) *
                  (time - r.totalTime / (r.samples.length : ℚ))) 0) /
            ((r.samples.length - 1 : ℕ) : ℚ)) : ℚ) : ℝ) /
          Real.sqrt (r.samples.length : ℝ))) := by
  unfold calcResultStatistics
  dsimp only
  rw [if_neg (by omega)]

theorem calcResultStatistics_std_of_le (r : TestResult) (h : r.samples.length ≤ 1) :
    (calcResultStatistics r).stdDeviation = r.stdDeviation := by
  unfold calcResultStatistics
  dsimp only
  rw [if_pos h]

theorem calcResultStatistics_margin_of_le (r : TestResult) (h : r.samples.length ≤ 1) :
    (calcResultStatistics r).marginOfError = r.marginOfError := by
  unfold calcResultStatistics
  dsimp only
  rw [if_pos h]

/-- Claim C3: in the statistics of a completed run, a TestResult with more
than one sample carries the Bessel-corrected standard deviation
`sqrt(Σ (x - mean)² / (n - 1))` around the sample mean and the margin of
error `t(0.975, n-1) · stdDeviation / √n`; a TestResult with exactly one
sample keeps both dispersion fields absent while `meanTime` is its single
sample and `opsPerSecond` is `1000 / samples[0]`. -/
theorem C3_dispersion_statistics {V R : Type} (ctx : RunCtx V R)
    (verbosity fuel : ℕ) (out : RunOutput)
    (hrun : run ctx verbosity fuel = some out) (hcomp : out.completed = true) :
    ∀ r ∈ out.results,
      (1 < r.samples.length →
        r.stdDeviation = some (Real.sqrt
          ((((r.samples.map fun x =>
              (x - r.samples.sum / (r.samples.length : ℚ)) ^ 2).sum /
            ((r.samples.length - 1 : ℕ) : ℚ)) : ℚ) : ℝ)) ∧
        r.marginOfError = some
          (((getTCritical95 (r.samples.length - 1) : ℚ) : ℝ) *
            (Real.sqrt ((((r.samples.map fun x =>
                (x - r.samples.sum / (r.samples.length : ℚ)) ^ 2).sum /
              ((r.samples.length - 1 : ℕ) : ℚ)) : ℚ) : ℝ) /
            Real.sqrt (r.samples.length : ℝ)))) ∧
      (r.samples.length = 1 →
        r.stdDeviation = none ∧ r.marginOfError = none ∧
        r.meanTime = some (r.samples.getD 0 0) ∧
        r.opsPerSecond = some (1000 / r.samples.getD 0 0)) := by
  intro r hr
  unfold run at hrun
  cases hrc : runCycles ctx ctx.cycles fuel (initState ctx) with
  | fuelOut =>
    rw [hrc] at hrun
    cases hrun
  | halted m s =>
    rw [hrc] at hrun
    injection hrun with hrun
    subst hrun
    cases hcomp
  | done s =>
    rw [hrc] at hrun
    injection hrun with hrun
    subst hrun
    simp only at hr
    have hr2 : r ∈ calculateStatistics s.results := by
      by_cases hv : verbosity > 0
      · rw [if_pos hv] at hr
        exact mem_printResultsSort.mp hr
      · rwa [if_neg hv] at hr
    cases hcycles : ctx.cycles with
    | zero =>
      rw [hcycles] at hrc
      unfold runCycles at hrc
      cases hrc
      obtain ⟨r3, hr3, hsamp, -⟩ := mem_calculateStatistics hr2
      rw [mem_initState_samples ctx hr3] at hsamp
      constructor
      · intro hgt
        rw [hsamp] at hgt
        simp at hgt
      · intro heq
        rw [hsamp] at heq
        simp at heq
    | succ k =>
      rw [hcycles] at hrc
      obtain ⟨hslen, hspos⟩ :=
        runCycles_done_pos ctx k fuel (initState ctx) s
          (initState_results_length ctx) hrc
      have hsinv : stateInv s :=
        runCycles_done_inv ctx stateInv (fun a b hI hst => stateInv_step ctx hI hst)
          (fun a hI => stateInv_startCycle ctx hI) (k + 1) fuel (initState ctx) s
          (stateInv_init ctx) hrc
      have hnodisp : NoDispersion s :=
        runCycles_done_inv ctx NoDispersion
          (fun a b hI hst => noDispersion_step ctx hI hst)
          (fun a hI => noDispersion_startCycle ctx hI) (k + 1) fuel (initState ctx) s
          (noDispersion_init ctx) hrc
      have hall : ∀ r2 ∈ s.results, r2.samples.length ≠ 0 := by
        intro r2 hr2m
        obtain ⟨j, hj, hgd⟩ := List.mem_iff_getElem.mp hr2m
        have hj2 : j < ctx.tests.length := by
          rw [← hslen]
          exact hj
        have := hspos j hj2
        rw [List.getD_eq_getElem _ _ hj, hgd] at this
        omega
      rw [calculateStatistics_eq_map hall] at hr2
      obtain ⟨r3, hr3m, rfl⟩ := List.mem_map.mp hr2
      have hsum : r3.totalTime = r3.samples.sum := hsinv r3 hr3m
      have hvar : (r3.samples.foldl
          (fun acc time =>
            acc + (time - r3.totalTime / (r3.samples.length : ℚ)) *
              (time - r3.totalTime / (r3.samples.length : ℚ))) 0) =
          (r3.samples.map fun x =>
            (x - r3.samples.sum / (r3.samples.length : ℚ)) ^ 2).sum := by
        rw [hsum, foldl_add_map
          (fun time => (time - r3.samples.sum / (r3.samples.length : ℚ)) *
            (time - r3.samples.sum / (r3.samples.length : ℚ))), zero_add]
        refine congrArg List.sum (List.map_congr_left ?_)
        intro a ha
        ring
      constructor
      · intro hgt
        rw [calcResultStatistics_samples] at hgt
        constructor
        · rw [calcResultStatistics_std_of_gt r3 hgt, calcResultStatistics_samples,
            hvar]
        · rw [calcResultStatistics_margin_of_gt r3 hgt, calcResultStatistics_samples,
            hvar]
      · intro heq
        rw [calcResultStatistics_samples] at heq
        obtain ⟨x, hx⟩ := List.length_eq_one.mp heq
        obtain ⟨hsd, hme⟩ := hnodisp r3 hr3m
        refine ⟨?_, ?_, ?_, ?_⟩
        · rw [calcResultStatistics_std_of_le r3 (by omega), hsd]
        · rw [calcResultStatistics_margin_of_le r3 (by omega), hme]
        · rw [calcResultStatistics_meanTime, calcResultStatistics_samples, hsum, hx]
          simp
        · rw [calcResultStatistics_ops, calcResultStatistics_samples, hsum, hx]
          simp

/-- Witness for C3: the statistics formulas evaluated on the concrete
completed run. -/
theorem C3_dispersion_statistics_witness :
    (run witCtx 0 5 = some witOut ∧ witOut.completed = true) ∧
    (∀ r ∈ witOut.results,
      (1 < r.samples.length →
        r.stdDeviation = some (Real.sqrt
          ((((r.samples.map fun x =>
              (x - r.samples.sum / (r.samples.length : ℚ)) ^ 2).sum /
            ((r.samples.length - 1 : ℕ) : ℚ)) : ℚ) : ℝ)) ∧
        r.marginOfError = some
          (((getTCritical95 (r.samples.length - 1) : ℚ) : ℝ) *
            (Real.sqrt ((((r.samples.map fun x =>
                (x - r.samples.sum / (r.samples.length : ℚ)) ^ 2).sum /
              ((r.samples.length - 1 : ℕ) : ℚ)) : ℚ) : ℝ) /
            Real.sqrt (r.samples.length : ℝ)))) ∧
      (r.samples.length = 1 →
        r.stdDeviation = none ∧ r.marginOfError = none ∧
        r.meanTime = some (r.samples.getD 0 0) ∧
        r.opsPerSecond = some (1000 / r.samples.getD 0 0))) :=
  ⟨⟨rfl, rfl⟩, C3_dispersion_statistics witCtx 0 5 witOut rfl rfl⟩

/-- Claim C10: the sort performed by `printResults` reorders `results` in
place into ascending `totalTime` order without changing any individual
TestResult (the sorted array is a permutation of the original); since `run`
applies it whenever `verbosity > 0` and the run completed, such a run's
final `results` is exactly the sorted permutation of the `verbosity = 0`
results of the same run. -/
theorem C10_printResults_sorts {V R : Type} :
    (∀ l : List TestResult,
      (printResultsSort l).Perm l ∧
      List.Sorted (fun a b : TestResult => a.totalTime ≤ b.totalTime)
        (printResultsSort l)) ∧
    (∀ (ctx : RunCtx V R) (verbosity fuel : ℕ) (out out0 : RunOutput),
      0 < verbosity →
      run ctx verbosity fuel = some out →
      run ctx 0 fuel = some out0 →
      out.completed = out0.completed ∧
      (out.completed = true →
        out.results = printResultsSort out0.results ∧
        List.Sorted (fun a b : TestResult => a.totalTime ≤ b.totalTime) out.results ∧
        out.results.Perm out0.results)) := by
  constructor
  · intro l
    exact ⟨List.perm_insertionSort _ l, List.sorted_insertionSort _ l⟩
  · intro ctx verbosity fuel out out0 hv hrun hrun0
    unfold run at hrun hrun0
    cases hrc : runCycles ctx ctx.cycles fuel (initState ctx) with
    | fuelOut =>
      rw [hrc] at hrun
      cases hrun
    | halted m s =>
      rw [hrc] at hrun hrun0
      injection hrun with hrun
      injection hrun0 with hrun0
      subst hrun
      subst hrun0
      exact ⟨rfl, fun h => by cases h⟩
    | done s =>
      rw [hrc] at hrun hrun0
      injection hrun with hrun
      injection hrun0 with hrun0
      subst hrun
      subst hrun0
      refine ⟨rfl, fun _ => ?_⟩
      simp only [if_pos hv, Nat.lt_irrefl, if_neg (by omega : ¬(0 : ℕ) > 0)]
      exact ⟨rfl, List.sorted_insertionSort _ _, List.perm_insertionSort _ _⟩

/-- Witness for C10: the concrete completed run at verbosity 1 against the
same run at verbosity 0. -/
theorem C10_printResults_sorts_witness :
    (0 < 1 ∧ run witCtx 1 5 = some witOutV ∧ run witCtx 0 5 = some witOut) ∧
    (witOutV.completed = witOut.completed ∧
      (witOutV.completed = true →
        witOutV.results = printResultsSort witOut.results ∧
        List.Sorted (fun a b : TestResult => a.totalTime ≤ b.totalTime)
          witOutV.results ∧
        witOutV.results.Perm witOut.results)) :=
  ⟨⟨Nat.one_pos, rfl, rfl⟩,
    C10_printResults_sorts.2 witCtx 1 5 witOutV witOut Nat.one_pos rfl rfl⟩

end GudBench
